import Mathlib

/-!
# Debate transcript tool: speeches, events, ingestion grouping and the speaker roll-up

A shallow embedding of `speech.cpp`, `event.cpp`, `event.h` and of the reading,
aggregation and sorting code of `main.cpp`, followed by theorems about it.

Modelling conventions.

* `std::string` is a Lean `String`; its characters are read through `String.data`.
  `operator<` on strings is `strLt`, the lexicographic comparison of the
  character codes.
* `int` fields and counters are mathematical integers (`Int`). Signed overflow is
  undefined behaviour in C++, so the model describes the runs in which every
  counter stays inside the range of `int`.
* The `float` field `speech::length` is a rational number (every finite `float`
  is one). The only operation the code applies to it is the conversion to `int`
  in `speech::getLength`, which truncates toward zero and has the range of
  `int` (`floatToInt`).
* `std::map<string, speakerStats>` is a list of key/value pairs kept in
  increasing key order (the iteration order of `std::map`); `SpeakerMap.Ok`
  states that order, which every `std::map` satisfies.
* `std::forward_list::push_front` is `List.cons`; `std::vector::emplace_back`
  appends at the end of a list.
* The `int` division is `intDiv`, which has no result for the divisor 0.
* `std::sort` is `stdSort`, a sort by insertion with the comparator of the call.
* A line of the file is read as its list of characters; `std::stoi` is `stoi`,
  which has no result where `std::stoi` throws.
-/

namespace Debate

/-! ## Strings -/

/-- The comparison `a < b` of two `std::string` values, as lists of characters:
lexicographic order of the character codes, a proper prefix being smaller. -/
def strLt : List Char → List Char → Bool
  | _, [] => false
  | [], _ :: _ => true
  | a :: as, b :: bs =>
    if a.toNat < b.toNat then true
    else if b.toNat < a.toNat then false
    else strLt as bs

/-- The delimiter set `",. "` searched for by `countWord`. -/
def isDelim (c : Char) : Bool :=
  c = ',' || c = '.' || c = ' '

/-- Scan `cs`, whose first character has index `i`, for the first character
satisfying `p`; `none` is `string::npos`. -/
def findAux (p : Char → Bool) : List Char → Nat → Option Nat
  | [], _ => none
  | c :: cs, i => if p c then some i else findAux p cs (i + 1)

/-- The call `transcript.find_first_of(",. ", pos)`: the index of the first
delimiter at or after `pos`, or `none` for `string::npos` (also when `pos` is
beyond the end). -/
def find_first_of (transcript : List Char) (pos : Nat) : Option Nat :=
  findAux isDelim (transcript.drop pos) pos

/-- Scan `cs`, whose first character has index `i`, up to the first
alphanumeric character or the end. -/
def skipAux : List Char → Nat → Nat
  | [], i => i
  | c :: cs, i => if c.isAlphanum then i else skipAux cs (i + 1)

/-- The inner loop of `countWord`:
`while (pos < transcript.length() && !isalnum(transcript[pos])) pos++`. -/
def skipNonAlnum (transcript : List Char) (pos : Nat) : Nat :=
  skipAux (transcript.drop pos) pos

/-- The outer loop of `countWord`, `while (pos != string::npos)`, run for at
most `fuel` tests of its condition. The position is `none` when it holds
`string::npos` (the inner loop then does nothing, since `npos` compares above
every length). The result is `none` when the fuel runs out before the loop
ends. -/
def countWordLoop (transcript : List Char) : Nat → Int → Option Nat → Option Int
  | 0, _, _ => none
  | _ + 1, count, none => some count
  | fuel + 1, count, some pos =>
    let count1 := count + 1
    let found := find_first_of transcript (pos + 1)
    let pos1 := found.map (skipNonAlnum transcript)
    countWordLoop transcript fuel count1 pos1

/-- The run of `countWord` with a given fuel: `count = 0`, the first
`find_first_of` from position 0, then the loop. -/
def countWordFuel (fuel : Nat) (transcript : List Char) : Option Int :=
  countWordLoop transcript fuel 0 (find_first_of transcript 0)

/-- The method `speech::countWord`. The loop is run with fuel
`transcript.length() + 2`, which `countWordFuel_length` shows to be enough on
every input. -/
def countWord (transcript : String) : Int :=
  (countWordFuel (transcript.data.length + 2) transcript.data).getD 0

/-! ## Speech -/

/-- The class `speech`. -/
structure speech where
  /-- Chronological position of the speech in its event. -/
  position : Int
  /-- Name of the speaker. -/
  speaker : String
  /-- Text of the speech. -/
  script : String
  /-- Speaking time (a `float`). -/
  length : ℚ
  /-- Word count, computed by the constructor. -/
  wordCount : Int
deriving DecidableEq

/-- The constructor `speech::speech(int, string, string, float)`. -/
def speech.new (pos : Int) (speakerString scriptString : String) (lengthFloat : ℚ) :
    speech where
  position := pos
  speaker := speakerString
  script := scriptString
  length := lengthFloat
  wordCount := countWord scriptString

/-- The accessor `speech::getPosition`. -/
def speech.getPosition (sp : speech) : Int := sp.position

/-- The accessor `speech::getSpeaker`. -/
def speech.getSpeaker (sp : speech) : String := sp.speaker

/-- The accessor `speech::getScript`. -/
def speech.getScript (sp : speech) : String := sp.script

/-- The conversion of a `float` to `int`: the fractional part is dropped, and a
value whose integer part is outside the range of `int` gives `-2147483648`
(C++ leaves that case undefined; this is the result of the conversion
instruction of x86-64, to which the code is compiled). -/
def floatToInt (x : ℚ) : Int :=
  let t := Int.tdiv x.num x.den
  if -(2 : Int) ^ 31 ≤ t ∧ t < (2 : Int) ^ 31 then t else -(2 : Int) ^ 31

/-- The accessor `speech::getLength`, `const int getLength() const {return length;}`:
the `float` is converted to `int`. -/
def speech.getLength (sp : speech) : Int := floatToInt sp.length

/-- The accessor `speech::getCount`. -/
def speech.getCount (sp : speech) : Int := sp.wordCount

/-! ## Speaker statistics and the speaker map -/

/-- The struct `speakerStats`; every field has the default member initialiser 0. -/
structure speakerStats where
  /-- Number of speeches. -/
  timesSpoke : Int := 0
  /-- Sum of the word counts. -/
  totalWordCount : Int := 0
  /-- Sum of the speaking times. -/
  totalSpeakingTime : Int := 0
  /-- Number of events attended. -/
  appearances : Int := 0
deriving DecidableEq

/-- The type `map<string, speakerStats>`: the entries in iteration order. -/
abbrev SpeakerMap := List (String × speakerStats)

/-- The lookup `m.find(k)`: the value stored under `k`, if any. -/
def SpeakerMap.find : SpeakerMap → String → Option speakerStats
  | [], _ => none
  | (k1, v1) :: rest, k => if k = k1 then some v1 else SpeakerMap.find rest k

/-- The call `m.count(k)`: 1 when `k` is a key of the map, 0 otherwise. -/
def SpeakerMap.count (m : SpeakerMap) (k : String) : Nat :=
  match m.find k with
  | some _ => 1
  | none => 0

/-- The call `m.size()`. -/
def SpeakerMap.size (m : SpeakerMap) : Nat := m.length

/-- Store `v` under `k`: the entry of `k` is replaced when there is one, and a
new entry is inserted at its place in key order otherwise. -/
def SpeakerMap.set : SpeakerMap → String → speakerStats → SpeakerMap
  | [], k, v => [(k, v)]
  | (k1, v1) :: rest, k, v =>
    if k = k1 then (k, v) :: rest
    else if strLt k.data k1.data then (k, v) :: (k1, v1) :: rest
    else (k1, v1) :: SpeakerMap.set rest k v

/-- The value read through `m[k]`: the stored value, or the value-initialised
`speakerStats()` that `operator[]` inserts when `k` is absent. -/
def SpeakerMap.at (m : SpeakerMap) (k : String) : speakerStats :=
  (m.find k).getD {}

/-- A statement `m[k].field = ...`, `m[k].field += ...` or `m[k].field++`:
`operator[]` creates the entry when it is absent, then the value is changed by `f`. -/
def SpeakerMap.update (m : SpeakerMap) (k : String) (f : speakerStats → speakerStats) :
    SpeakerMap :=
  m.set k (f (m.at k))

/-- The invariant of `std::map`: the keys are strictly increasing. -/
def SpeakerMap.Ok (m : SpeakerMap) : Prop :=
  m.Pairwise (fun a b => strLt a.1.data b.1.data = true)

/-! ## Event -/

/-- The class `event`. -/
structure event where
  /-- Date of the event. -/
  date : String
  /-- Name of the event. -/
  name : String
  /-- Statistics of each speaker of the event. -/
  speakers : SpeakerMap
  /-- The speeches (a `forward_list`, most recently added first). -/
  speeches : List speech
  /-- Number of speeches. -/
  speechCount : Int
  /-- Sum of the word counts of the speeches. -/
  totalWordCount : Int
  /-- Sum of the speaking times of the speeches. -/
  totalSpeakingTime : Int
  /-- Number of speakers. -/
  speakerCount : Int
deriving DecidableEq

/-- The constructor `event::event(string nameString, string dateString)`. -/
def event.new (nameString dateString : String) : event where
  date := dateString
  name := nameString
  speakers := []
  speeches := []
  speechCount := 0
  totalWordCount := 0
  totalSpeakingTime := 0
  speakerCount := 0

/-- The method `event::addSpeech`. -/
def event.addSpeech (e : event) (sp : speech) : event :=
  let speeches := sp :: e.speeches
  let speechCount := e.speechCount + 1
  let totalWordCount := e.totalWordCount + sp.getCount
  let totalSpeakingTime := e.totalSpeakingTime + sp.getLength
  let speaker := sp.getSpeaker
  let isNew := e.speakers.count speaker = 0
  let speakers0 := if isNew then e.speakers.set speaker {} else e.speakers
  let speakerCount := if isNew then e.speakerCount + 1 else e.speakerCount
  let speakers1 := speakers0.update speaker
    (fun st => { st with timesSpoke := st.timesSpoke + 1 })
  let speakers2 := speakers1.update speaker
    (fun st => { st with totalWordCount := st.totalWordCount + sp.getCount })
  let speakers3 := speakers2.update speaker
    (fun st => { st with totalSpeakingTime := st.totalSpeakingTime + sp.getLength })
  { e with
    speakers := speakers3
    speeches := speeches
    speechCount := speechCount
    totalWordCount := totalWordCount
    totalSpeakingTime := totalSpeakingTime
    speakerCount := speakerCount }

/-- The accessor `event::getDate`. -/
def event.getDate (e : event) : String := e.date

/-- The accessor `event::getName`. -/
def event.getName (e : event) : String := e.name

/-- The accessor `event::getSpeakerCount`. -/
def event.getSpeakerCount (e : event) : Int := e.speakerCount

/-- The accessor `event::getSpeechCount`. -/
def event.getSpeechCount (e : event) : Int := e.speechCount

/-- The accessor `event::getWordCount`. -/
def event.getWordCount (e : event) : Int := e.totalWordCount

/-- The accessor `event::getTotalTime`. -/
def event.getTotalTime (e : event) : Int := e.totalSpeakingTime

/-- The accessor `event::getSpeakers`, which returns a copy of the map. -/
def event.getSpeakers (e : event) : SpeakerMap := e.speakers

/-- The event reached from `e` by the calls `addSpeech(sps[0])`, `addSpeech(sps[1])`, ... -/
def event.addAll (e : event) (sps : List speech) : event :=
  sps.foldl event.addSpeech e

/-! ## The cross-event roll-up of `speakerMenu` -/

/-- The body of the inner loop of `speakerMenu`, for one entry `speaker` of an
event's map: a speaker new to `allSpeakers` gets `appearances = 1` and a copy of
the three totals; a known speaker gets `appearances++` and the totals added. -/
def rollupEntry (allSpeakers : SpeakerMap) (speaker : String × speakerStats) : SpeakerMap :=
  if allSpeakers.count speaker.1 = 0 then
    let m1 := allSpeakers.update speaker.1 (fun st => { st with appearances := 1 })
    let m2 := m1.update speaker.1 (fun st => { st with timesSpoke := speaker.2.timesSpoke })
    let m3 := m2.update speaker.1
      (fun st => { st with totalWordCount := speaker.2.totalWordCount })
    m3.update speaker.1
      (fun st => { st with totalSpeakingTime := speaker.2.totalSpeakingTime })
  else
    let m1 := allSpeakers.update speaker.1
      (fun st => { st with appearances := st.appearances + 1 })
    let m2 := m1.update speaker.1
      (fun st => { st with timesSpoke := st.timesSpoke + speaker.2.timesSpoke })
    let m3 := m2.update speaker.1
      (fun st => { st with totalWordCount := st.totalWordCount + speaker.2.totalWordCount })
    m3.update speaker.1
      (fun st => { st with
        totalSpeakingTime := st.totalSpeakingTime + speaker.2.totalSpeakingTime })

/-- The inner loop of `speakerMenu`: every entry of `tempSpeakers =
allSpeeches[i]->getSpeakers()`, in map order. -/
def rollupEvent (allSpeakers : SpeakerMap) (e : event) : SpeakerMap :=
  e.getSpeakers.foldl rollupEntry allSpeakers

/-- The map `allSpeakers` that `speakerMenu` computes from the event vector
before it shows its menu (the global roll-up). -/
def speakerMenu_allSpeakers (allSpeeches : List event) : SpeakerMap :=
  allSpeeches.foldl rollupEvent []

/-! ## The grouping step of `readFile` -/

/-- The conversion of `float length = getLength(line, pos)`: the `int` is
rounded to the nearest `float` (24 significant bits, ties to even); integers
of magnitude below `2^24` are exact. -/
def floatOfInt (n : Int) : ℚ :=
  let a := n.natAbs
  if a < 2 ^ 24 then (n : ℚ)
  else
    let e := Nat.log2 a - 23
    let q := a / 2 ^ e
    let r := a % 2 ^ e
    let half := 2 ^ (e - 1)
    let q1 := if half < r ∨ (r = half ∧ q % 2 = 1) then q + 1 else q
    let m : Int := ((q1 * 2 ^ e : Nat) : Int)
    if n < 0 then ((-m : Int) : ℚ) else (m : ℚ)

/-- The fields of an accepted row that reach the grouping step of `readFile`:
the values of `date`, `eventName`, `speaker`, `script` and of the `int`
returned by `getLength`. -/
structure Row where
  /-- First field of the line. -/
  date : String
  /-- Second field of the line. -/
  eventName : String
  /-- Fourth field of the line. -/
  speaker : String
  /-- Fifth field of the line. -/
  script : String
  /-- Speaking time read by `getLength`. -/
  length : Int
deriving DecidableEq

/-- The variables of `readFile` that live across the iterations of its loop.
The pointer `eventObj` is not a field: it is assigned only where an event is
appended to `allSpeeches`, so it points to the last element of `allSpeeches`,
and it is uninitialised while `allSpeeches` is empty. -/
structure ReadState where
  /-- Position of the current row in its event. -/
  lineNumber : Int
  /-- Date of the row accepted last. -/
  prevDate : String
  /-- The vector of events. -/
  allSpeeches : List event
deriving DecidableEq

/-- The values of the variables of `readFile` before its loop. -/
def ReadState.init : ReadState where
  lineNumber := 1
  prevDate := ""
  allSpeeches := []

/-- The grouping step of `readFile` for one accepted row (from
`if (date != prevDate)` to `eventObj->addSpeech(...)`). The result is `none`
when `addSpeech` is called through the uninitialised `eventObj`. -/
def groupStep (st : ReadState) (r : Row) : Option ReadState :=
  let st1 : ReadState :=
    if r.date ≠ st.prevDate then
      { lineNumber := 1
        prevDate := r.date
        allSpeeches := st.allSpeeches ++ [event.new r.eventName r.date] }
    else
      { st with lineNumber := st.lineNumber + 1 }
  match st1.allSpeeches.getLast? with
  | none => none
  | some eventObj =>
    let sp := speech.new st1.lineNumber r.speaker r.script (floatOfInt r.length)
    some { st1 with allSpeeches := st1.allSpeeches.dropLast ++ [eventObj.addSpeech sp] }

/-- The grouping steps of `readFile` for a sequence of accepted rows, in file order. -/
def readRows (st : ReadState) : List Row → Option ReadState
  | [] => some st
  | r :: rs =>
    match groupStep st r with
    | none => none
    | some st1 => readRows st1 rs

/-! ## Reference definitions used in the statements -/

/-- The operation "record a contribution from one speech" on a `speakerStats`:
the three statements that end `addSpeech`. -/
def speakerStats.record (v : speakerStats) (sp : speech) : speakerStats where
  timesSpoke := v.timesSpoke + 1
  totalWordCount := v.totalWordCount + sp.getCount
  totalSpeakingTime := v.totalSpeakingTime + sp.getLength
  appearances := v.appearances

/-- The speeches of `sps` whose speaker is `s`. -/
def speechesOf (s : String) (sps : List speech) : List speech :=
  sps.filter (fun sp => decide (sp.getSpeaker = s))

/-- The statistics `v0` increased by the number, the word counts and the
speaking times (as returned by `getLength`) of the speeches `mine`. -/
def speechTotals (v0 : speakerStats) (mine : List speech) : speakerStats where
  timesSpoke := v0.timesSpoke + mine.length
  totalWordCount := v0.totalWordCount + (mine.map speech.getCount).sum
  totalSpeakingTime := v0.totalSpeakingTime + (mine.map speech.getLength).sum
  appearances := v0.appearances

/-! ## Reference definitions for the roll-up and the grouping step -/

/-- The effect of the inner loop body of `speakerMenu` on the roll-up entry of
one speaker: `o` is the entry before (if any), `st` the per-event statistics. -/
def mergeStats (o : Option speakerStats) (st : speakerStats) : speakerStats :=
  match o with
  | none =>
    { timesSpoke := st.timesSpoke
      totalWordCount := st.totalWordCount
      totalSpeakingTime := st.totalSpeakingTime
      appearances := 1 }
  | some v =>
    { timesSpoke := v.timesSpoke + st.timesSpoke
      totalWordCount := v.totalWordCount + st.totalWordCount
      totalSpeakingTime := v.totalSpeakingTime + st.totalSpeakingTime
      appearances := v.appearances + 1 }

/-- The roll-up entry obtained from the entry `o` by merging the per-event
statistics `l` one after the other. -/
def mergeAll (o : Option speakerStats) (l : List speakerStats) : Option speakerStats :=
  l.foldl (fun acc st => some (mergeStats acc st)) o

/-- The values stored under the key `s` in the entry list `m`. -/
def entriesOf (s : String) (m : SpeakerMap) : List speakerStats :=
  (m.filter (fun p => decide (p.1 = s))).map Prod.snd

/-- The field-wise sums of the statistics `l`, with their number as `appearances`. -/
def rollTotals (l : List speakerStats) : speakerStats where
  timesSpoke := (l.map speakerStats.timesSpoke).sum
  totalWordCount := (l.map speakerStats.totalWordCount).sum
  totalSpeakingTime := (l.map speakerStats.totalSpeakingTime).sum
  appearances := (l.length : Int)

/-- The per-event statistics of speaker `s`, one for each event of `events` whose
speakers map has the key `s`, in the order of the events. -/
def perEventStats (s : String) (events : List event) : List speakerStats :=
  events.filterMap (fun e => SpeakerMap.find e.getSpeakers s)

/-- A sample event: one speech of "Alice" and two of "Bob". -/
def sampleEventA : event :=
  (event.new "Debate 1" "2019-06-26").addAll
    [speech.new 1 "Alice" "good evening" 4, speech.new 2 "Bob" "thank you" 3,
      speech.new 3 "Bob" "yes" 1]

/-- A second sample event: one speech of "Bob". -/
def sampleEventB : event :=
  (event.new "Debate 2" "2019-07-30").addAll [speech.new 1 "Bob" "hello again" 5]

/-- What the grouping claim observes of an event: its date, its `speechCount`
and the length of its `speeches` list. -/
def eventInfo (e : event) : String × Int × Nat :=
  (e.getDate, e.getSpeechCount, e.speeches.length)

/-- What the grouping claim observes of a run of equal dates: the date and the
number of rows (as `int` and as a length). -/
def runInfo (run : List String) : String × Int × Nat :=
  (run.headD "", (run.length : Int), run.length)

/-- The maximal contiguous runs of equal dates of a list of dates, in order. -/
def dateRuns (dates : List String) : List (List String) :=
  dates.splitBy (fun a b => a == b)

/-- The date of the last of `rows`, or the initial value `""` of `prevDate`
when there is none. -/
def lastDate (rows : List Row) : String :=
  (rows.getLast?.map Row.date).getD ""

/-- Four sample rows, with the dates 2019-06-26, 2019-06-26, 2019-06-27 and
2019-06-26. -/
def sampleRows : List Row :=
  [{ date := "2019-06-26", eventName := "Debate 1", speaker := "Alice",
     script := "good evening", length := 4 },
   { date := "2019-06-26", eventName := "Debate 1", speaker := "Bob",
     script := "thank you", length := 3 },
   { date := "2019-06-27", eventName := "Debate 2", speaker := "Bob",
     script := "yes", length := 1 },
   { date := "2019-06-26", eventName := "Debate 1", speaker := "Alice",
     script := "no", length := 2 }]

/-! ## Sorting and averages -/

/-- The comparator `event::sortEventName`: `e1->getName() < e2->getName()`. -/
def sortEventName (e1 e2 : event) : Bool :=
  strLt e1.getName.data e2.getName.data

/-- The comparator `event::sortEventDate`: `e1->getDate() > e2->getDate()`. -/
def sortEventDate (e1 e2 : event) : Bool :=
  strLt e2.getDate.data e1.getDate.data

/-- The comparator `event::sortEventAttendance`:
`e1->speakerCount > e2->speakerCount`. -/
def sortEventAttendance (e1 e2 : event) : Bool :=
  decide (e1.speakerCount > e2.speakerCount)

/-- The `int` division `a / b` of C++: the quotient truncated toward zero, and
`none` for the undefined division by zero. -/
def intDiv (a b : Int) : Option Int :=
  if b = 0 then none else some (Int.tdiv a b)

/-- The comparator `event::sortSpeakersName`. -/
def sortSpeakersName (speaker1 speaker2 : String × speakerStats) : Bool :=
  strLt speaker1.1.data speaker2.1.data

/-- The comparator `event::sortSpeakersAvgWC`:
`(totalWordCount / timesSpoke)` of the first `>` that of the second; `none`
when one of the two divisions is by zero. -/
def sortSpeakersAvgWC (speaker1 speaker2 : String × speakerStats) : Option Bool :=
  match intDiv speaker1.2.totalWordCount speaker1.2.timesSpoke,
    intDiv speaker2.2.totalWordCount speaker2.2.timesSpoke with
  | some a, some b => some (decide (a > b))
  | _, _ => none

/-- The comparator `event::sortSpeakersHighWC`. -/
def sortSpeakersHighWC (speaker1 speaker2 : String × speakerStats) : Bool :=
  decide (speaker1.2.totalWordCount > speaker2.2.totalWordCount)

/-- The comparator `event::sortSpeakersAvgTime`; `none` when one of the two
divisions is by zero. -/
def sortSpeakersAvgTime (speaker1 speaker2 : String × speakerStats) : Option Bool :=
  match intDiv speaker1.2.totalSpeakingTime speaker1.2.timesSpoke,
    intDiv speaker2.2.totalSpeakingTime speaker2.2.timesSpoke with
  | some a, some b => some (decide (a > b))
  | _, _ => none

/-- The comparator `event::sortSpeakersHighTime`. -/
def sortSpeakersHighTime (speaker1 speaker2 : String × speakerStats) : Bool :=
  decide (speaker1.2.totalSpeakingTime > speaker2.2.totalSpeakingTime)

/-- The comparator `event::sortSpeakersAttendance`. -/
def sortSpeakersAttendance (speaker1 speaker2 : String × speakerStats) : Bool :=
  decide (speaker1.2.appearances > speaker2.2.appearances)

/-- The "Average Word Count" printed by `eventDetails`:
`getWordCount() / getSpeechCount()`. -/
def event.avgWordCount (eventToStat : event) : Option Int :=
  intDiv eventToStat.getWordCount eventToStat.getSpeechCount

/-- The "Average Speaking Time" printed by `eventDetails`:
`getTotalTime() / getSpeechCount()`. -/
def event.avgSpeakingTime (eventToStat : event) : Option Int :=
  intDiv eventToStat.getTotalTime eventToStat.getSpeechCount

/-- The average word count printed by `printEventAttendeesStats`:
`stats.totalWordCount / stats.timesSpoke`. -/
def speakerStats.avgWordCount (stats : speakerStats) : Option Int :=
  intDiv stats.totalWordCount stats.timesSpoke

/-- The average speaking time printed by `printEventAttendeesStats`:
`stats.totalSpeakingTime / stats.timesSpoke`. -/
def speakerStats.avgSpeakingTime (stats : speakerStats) : Option Int :=
  intDiv stats.totalSpeakingTime stats.timesSpoke

/-- Insert `x` into a list ordered by `comp`, after the elements that `comp`
puts before it. -/
def insertBy {α : Type} (comp : α → α → Bool) (x : α) : List α → List α
  | [] => [x]
  | y :: ys => if comp y x then y :: insertBy comp x ys else x :: y :: ys

/-- A model of `std::sort(first, last, comp)`: a sort by insertion. The standard
fixes the result of `std::sort` up to the order of the elements that `comp`
leaves unordered; the statements on `stdSort` below are also shown for every
other permutation that is ordered by `comp`. -/
def stdSort {α : Type} (comp : α → α → Bool) : List α → List α
  | [] => []
  | x :: xs => insertBy comp x (stdSort comp xs)

/-! ## Reading a line of the file -/

/-- The character `line[pos]` of a `std::string`: the character at `pos`, and
the terminating NUL at `pos = size()`. Reading beyond that is undefined in
C++; the model reads a NUL there too (whatever is read, every search that
starts there finds nothing). -/
def charAt (line : List Char) (pos : Nat) : Char :=
  line.getD pos (Char.ofNat 0)

/-- The call `line.find(c, pos)`: the index of the first `c` at or after `pos`,
`none` for `string::npos`. -/
def findChar (c : Char) (line : List Char) (pos : Nat) : Option Nat :=
  findAux (fun x => decide (x = c)) (line.drop pos) pos

/-- The function `nextCSV(line, startPos)`: the value returned and the value
left in the reference parameter `startPos`. -/
def nextCSV (line : List Char) (startPos : Nat) : String × Nat :=
  let quoted := decide (charAt line startPos = '"')
  let startPos1 := if quoted then startPos + 1 else startPos
  let newPos := if quoted then findChar '"' line startPos1 else findChar ',' line startPos1
  match newPos with
  | none => ("Failure", startPos1)
  | some np =>
    let val := String.mk ((line.drop startPos1).take (np - startPos1))
    let startPos2 := if charAt line np = '"' then np + 1 else np
    (val, startPos2)

/-- The characters that `isspace` accepts, which `std::stoi` skips first. -/
def isSpaceChar (c : Char) : Bool :=
  c = ' ' || c = '\t' || c = '\n' || c = Char.ofNat 11 || c = Char.ofNat 12 || c = '\r'

/-- The value of a string of decimal digits. -/
def digitsValue (ds : List Char) : Nat :=
  ds.foldl (fun acc c => 10 * acc + (c.toNat - 48)) 0

/-- The call `std::stoi(s)`: leading white space is skipped, then an optional
sign and the longest run of decimal digits are read. The result is `none` when
`stoi` throws: no digit (`invalid_argument`) or a value outside the range of
`int` (`out_of_range`). -/
def stoi (s : List Char) : Option Int :=
  let s1 := s.dropWhile isSpaceChar
  let neg := decide (s1.head? = some '-')
  let s2 := if s1.head? = some '-' ∨ s1.head? = some '+' then s1.tail else s1
  let ds := s2.takeWhile Char.isDigit
  if ds = [] then none
  else
    let n : Int := if neg then -((digitsValue ds : Nat) : Int) else ((digitsValue ds : Nat) : Int)
    if -(2 : Int) ^ 31 ≤ n ∧ n < (2 : Int) ^ 31 then some n else none

/-- The function `getLength(line, startPos)`: `startPos++`, then the `stoi` of
the rest of the line, and 0 when `substr` or `stoi` throws. -/
def getLength (line : List Char) (startPos : Nat) : Int :=
  (stoi (line.drop (startPos + 1))).getD 0

/-- The body of the loop of `readFile` up to the grouping step, for one line:
the five calls of `nextCSV` with `pos++` between them, the call of `getLength`,
and the tests that end the iteration with `continue` (`none`). -/
def parseLine (line : List Char) : Option Row :=
  let (date, pos1) := nextCSV line 0
  if date = "Failure" then none
  else
    let (eventName, pos2) := nextCSV line (pos1 + 1)
    if eventName = "Failure" then none
    else
      let (sectionName, pos3) := nextCSV line (pos2 + 1)
      if sectionName = "Failure" then none
      else
        let (speaker, pos4) := nextCSV line (pos3 + 1)
        if eventName = "Failure" then none
        else
          let (script, pos5) := nextCSV line (pos4 + 1)
          if eventName = "Failure" then none
          else
            let length := getLength line pos5
            if floatOfInt length = -1 then none
            else
              some
                { date := date
                  eventName := eventName
                  speaker := speaker
                  script := script
                  length := length }

/-- One iteration of the loop of `readFile`: the line is skipped, or its row
goes through the grouping step. -/
def readLine (st : ReadState) (line : String) : Option ReadState :=
  match parseLine line.data with
  | none => some st
  | some r => groupStep st r

/-- The loop of `readFile` over the lines that follow the label line. -/
def readLines (st : ReadState) : List String → Option ReadState
  | [] => some st
  | line :: rest =>
    match readLine st line with
    | none => none
    | some st1 => readLines st1 rest

/-- The function `readFile`: the vector `allSpeeches` after the loop; `none`
when `addSpeech` was called through the uninitialised `eventObj`. -/
def readFile (lines : List String) : Option (List event) :=
  (readLines ReadState.init lines).map ReadState.allSpeeches

/-! ## Reference definitions for the reading of a line -/

/-- The values returned by the five calls of `nextCSV` that `readFile` makes on
a line (when no test ends the iteration before), and the position left by the
fifth. -/
structure Fields where
  /-- Result of the first call. -/
  date : String
  /-- Result of the second call. -/
  eventName : String
  /-- Result of the third call. -/
  sectionName : String
  /-- Result of the fourth call. -/
  speaker : String
  /-- Result of the fifth call. -/
  script : String
  /-- Position after the fifth call. -/
  pos : Nat

/-- The five calls of `nextCSV` of `readFile`, with `pos++` between them. -/
def readFields (line : List Char) : Fields :=
  let r1 := nextCSV line 0
  let r2 := nextCSV line (r1.2 + 1)
  let r3 := nextCSV line (r2.2 + 1)
  let r4 := nextCSV line (r3.2 + 1)
  let r5 := nextCSV line (r4.2 + 1)
  { date := r1.1, eventName := r2.1, sectionName := r3.1, speaker := r4.1, script := r5.1,
    pos := r5.2 }

/-- The number of speeches held by all the events of the vector. -/
def totalSpeeches (st : ReadState) : Nat :=
  (st.allSpeeches.map (fun e => e.speeches.length)).sum

/-- The value of `lineNumber` after the `if`/`else` of the grouping step. -/
def groupLineNumber (st : ReadState) (r : Row) : Int :=
  if r.date ≠ st.prevDate then 1 else st.lineNumber + 1

/-- The speech that the grouping step constructs and passes to `addSpeech`. -/
def groupSpeech (st : ReadState) (r : Row) : speech :=
  speech.new (groupLineNumber st r) r.speaker r.script (floatOfInt r.length)

/-- The accepted rows of a list of lines, in order. -/
def acceptedRows (lines : List String) : List Row :=
  lines.filterMap (fun line => parseLine line.data)

/-- Two sample lines of the file. -/
def sampleLines : List String :=
  ["2019-06-26,Debate 1,Part 1,Alice,\"Good evening, everyone.\",12.0",
   "2019-06-26,Debate 1,Part 1,Bob,Thank you.,"]

/-- An event that was built from a fresh event by at least one call of
`addSpeech`. -/
def event.Built (e : event) : Prop :=
  ∃ (nameString dateString : String) (sps : List speech),
    sps ≠ [] ∧ e = (event.new nameString dateString).addAll sps

/-- The positions of the speeches of an event, in the order in which they were
added, are 1, 2, ..., n. -/
def event.PositionsOk (e : event) : Prop :=
  e.speeches.reverse.map speech.getPosition
    = (List.range' 1 e.speeches.length).map Int.ofNat

/-! ## Reference definitions for the last claims -/

/-- An event that was built from a fresh event by calls of `addSpeech`
(possibly none). -/
def event.FromFresh (e : event) : Prop :=
  ∃ (nameString dateString : String) (sps : List speech),
    e = (event.new nameString dateString).addAll sps

/-- The requirement of `std::sort` on a comparator: it is a strict weak
ordering, that is irreflexive, transitive, and with a transitive
incomparability relation. -/
def StrictWeak {α : Type} (comp : α → α → Bool) : Prop :=
  (∀ a, comp a a = false) ∧
  (∀ a b c, comp a b = true → comp b c = true → comp a c = true) ∧
  (∀ a b c, comp a b = false ∧ comp b a = false → comp b c = false ∧ comp c b = false →
    comp a c = false ∧ comp c a = false)

/-- The same requirement for a comparator that may divide by zero, on the inputs
that satisfy `P`: there the comparator has a result, and is a strict weak
ordering. -/
def StrictWeakOn {α : Type} (P : α → Prop) (comp : α → α → Option Bool) : Prop :=
  (∀ a b, P a → P b → comp a b ≠ none) ∧
  (∀ a, P a → comp a a = some false) ∧
  (∀ a b c, P a → P b → P c → comp a b = some true → comp b c = some true →
    comp a c = some true) ∧
  (∀ a b c, P a → P b → P c → comp a b = some false ∧ comp b a = some false →
    comp b c = some false ∧ comp c b = some false →
    comp a c = some false ∧ comp c a = some false)

/-- The number of comma, period and space characters of `s` at the positions
`i` and above. -/
def delimsFrom (s : List Char) (i : Nat) : Nat :=
  (s.drop i).countP isDelim

/-- A field of a well-formed line: a plain text, or a text written between
double quotes. -/
inductive CsvField where
  /-- A text written as it is. -/
  | plain (t : List Char)
  /-- A text written between double quotes. -/
  | quoted (t : List Char)

/-- The text of a field. -/
def CsvField.text : CsvField → List Char
  | CsvField.plain t => t
  | CsvField.quoted t => t

/-- The characters that a field contributes to the line. -/
def CsvField.written : CsvField → List Char
  | CsvField.plain t => t
  | CsvField.quoted t => '"' :: (t ++ ['"'])

/-- A plain text has no comma and no double quote; a quoted text has no double
quote (commas are allowed). -/
def CsvField.WellFormed : CsvField → Prop
  | CsvField.plain t => ',' ∉ t ∧ '"' ∉ t
  | CsvField.quoted t => '"' ∉ t

instance CsvField.decidableWellFormed (f : CsvField) : Decidable f.WellFormed :=
  match f with
  | CsvField.plain t => inferInstanceAs (Decidable (',' ∉ t ∧ '"' ∉ t))
  | CsvField.quoted t => inferInstanceAs (Decidable ('"' ∉ t))

/-- The line `f1,f2,f3,f4,f5,n`, where `ds` is the written form of `n`. -/
def csvLine (f1 f2 f3 f4 f5 : CsvField) (ds : List Char) : List Char :=
  f1.written ++ ',' :: (f2.written ++ ',' :: (f3.written ++ ',' :: (f4.written ++
    ',' :: (f5.written ++ ',' :: ds))))


/-! ## Facts on the string order -/

theorem strLt_irrefl (a : List Char) : strLt a a = false := by
  induction a with
  | nil => rfl
  | cons c cs ih => simp [strLt, ih]

theorem strLt_trans : ∀ (a b c : List Char),
    strLt a b = true → strLt b c = true → strLt a c = true
  | [], [], _, h, _ => by simp [strLt] at h
  | _ :: _, [], _, h, _ => by simp [strLt] at h
  | [], _ :: _, [], _, h => by simp [strLt] at h
  | _ :: _, _ :: _, [], _, h => by simp [strLt] at h
  | [], _ :: _, _ :: _, _, _ => rfl
  | x :: xs, y :: ys, z :: zs, h1, h2 => by
    simp only [strLt] at h1 h2 ⊢
    split_ifs at h1 h2 ⊢ <;> first
      | rfl
      | omega
      | exact strLt_trans xs ys zs h1 h2

theorem charToNat_inj {a b : Char} (h : a.toNat = b.toNat) : a = b := by
  apply Char.ext
  apply UInt32.ext
  exact h

theorem strLt_total : ∀ (a b : List Char), a ≠ b → strLt a b = true ∨ strLt b a = true
  | [], [], h => absurd rfl h
  | [], _ :: _, _ => Or.inl rfl
  | _ :: _, [], _ => Or.inr rfl
  | x :: xs, y :: ys, h => by
    simp only [strLt]
    by_cases h1 : x.toNat < y.toNat
    · simp [h1]
    · by_cases h2 : y.toNat < x.toNat
      · simp [h2]
      · have hxy : x = y := charToNat_inj (by omega)
        subst hxy
        have hne : xs ≠ ys := fun e => h (by rw [e])
        simpa [h1] using strLt_total xs ys hne

theorem strLt_asymm (a b : List Char) (h : strLt a b = true) : strLt b a = false := by
  cases hb : strLt b a with
  | false => rfl
  | true =>
    have := strLt_trans a b a h hb
    rw [strLt_irrefl] at this
    cases this

theorem data_ne {a b : String} (h : a ≠ b) : a.data ≠ b.data :=
  fun e => h (String.ext e)

/-! ## Facts on the speaker map -/

theorem find_set_self (m : SpeakerMap) (k : String) (v : speakerStats) :
    SpeakerMap.find (SpeakerMap.set m k v) k = some v := by
  induction m with
  | nil => simp [SpeakerMap.set, SpeakerMap.find]
  | cons hd tl ih =>
    obtain ⟨k1, v1⟩ := hd
    simp only [SpeakerMap.set]
    split_ifs with h1 h2
    · simp [SpeakerMap.find]
    · simp [SpeakerMap.find]
    · simp [SpeakerMap.find, h1, ih]

theorem find_set_other (m : SpeakerMap) (k k2 : String) (v : speakerStats) (h : k2 ≠ k) :
    SpeakerMap.find (SpeakerMap.set m k v) k2 = SpeakerMap.find m k2 := by
  induction m with
  | nil => simp [SpeakerMap.set, SpeakerMap.find, h]
  | cons hd tl ih =>
    obtain ⟨k1, v1⟩ := hd
    simp only [SpeakerMap.set]
    split_ifs with h1 h2
    · subst h1
      simp [SpeakerMap.find, h]
    · simp [SpeakerMap.find, h]
    · simp [SpeakerMap.find, ih]

theorem find_update_self (m : SpeakerMap) (k : String) (f : speakerStats → speakerStats) :
    SpeakerMap.find (SpeakerMap.update m k f) k = some (f (SpeakerMap.at m k)) :=
  find_set_self m k _

theorem find_update_other (m : SpeakerMap) (k k2 : String) (f : speakerStats → speakerStats)
    (h : k2 ≠ k) : SpeakerMap.find (SpeakerMap.update m k f) k2 = SpeakerMap.find m k2 :=
  find_set_other m k k2 _ h

theorem at_update_self (m : SpeakerMap) (k : String) (f : speakerStats → speakerStats) :
    SpeakerMap.at (SpeakerMap.update m k f) k = f (SpeakerMap.at m k) := by
  simp [SpeakerMap.at, find_update_self]

theorem at_set_self (m : SpeakerMap) (k : String) (v : speakerStats) :
    SpeakerMap.at (SpeakerMap.set m k v) k = v := by
  simp [SpeakerMap.at, find_set_self]

theorem count_eq_zero_iff (m : SpeakerMap) (k : String) :
    SpeakerMap.count m k = 0 ↔ SpeakerMap.find m k = none := by
  unfold SpeakerMap.count
  cases SpeakerMap.find m k <;> simp

theorem mem_set (m : SpeakerMap) (k : String) (v : speakerStats) (x : String × speakerStats)
    (hx : x ∈ SpeakerMap.set m k v) : x = (k, v) ∨ x ∈ m := by
  induction m with
  | nil => simpa [SpeakerMap.set] using hx
  | cons hd tl ih =>
    obtain ⟨k1, v1⟩ := hd
    simp only [SpeakerMap.set] at hx
    split_ifs at hx with h1 h2
    · rcases List.mem_cons.mp hx with h | h
      · exact Or.inl h
      · exact Or.inr (List.mem_cons_of_mem _ h)
    · rcases List.mem_cons.mp hx with h | h
      · exact Or.inl h
      · exact Or.inr h
    · rcases List.mem_cons.mp hx with h | h
      · exact Or.inr (h ▸ List.mem_cons_self _ _)
      · rcases ih h with h3 | h3
        · exact Or.inl h3
        · exact Or.inr (List.mem_cons_of_mem _ h3)

theorem ok_nil : SpeakerMap.Ok [] := List.Pairwise.nil

theorem ok_set (m : SpeakerMap) (k : String) (v : speakerStats) (h : SpeakerMap.Ok m) :
    SpeakerMap.Ok (SpeakerMap.set m k v) := by
  induction m with
  | nil => simp [SpeakerMap.set, SpeakerMap.Ok]
  | cons hd tl ih =>
    obtain ⟨k1, v1⟩ := hd
    have hhd := (List.pairwise_cons.mp h).1
    have htl : SpeakerMap.Ok tl := (List.pairwise_cons.mp h).2
    simp only [SpeakerMap.set]
    split_ifs with h1 h2
    · subst h1
      exact List.pairwise_cons.mpr ⟨hhd, htl⟩
    · refine List.pairwise_cons.mpr ⟨?_, h⟩
      intro x hx
      rcases List.mem_cons.mp hx with hx1 | hx1
      · subst hx1
        exact h2
      · exact strLt_trans _ _ _ h2 (hhd x hx1)
    · refine List.pairwise_cons.mpr ⟨?_, ih htl⟩
      intro x hx
      rcases mem_set tl k v x hx with hx1 | hx1
      · subst hx1
        rcases strLt_total k.data k1.data (data_ne h1) with h3 | h3
        · exact absurd h3 h2
        · exact h3
      · exact hhd x hx1

theorem ok_update (m : SpeakerMap) (k : String) (f : speakerStats → speakerStats)
    (h : SpeakerMap.Ok m) : SpeakerMap.Ok (SpeakerMap.update m k f) :=
  ok_set m k _ h

theorem mem_keys_iff (m : SpeakerMap) (k : String) :
    k ∈ m.map Prod.fst ↔ SpeakerMap.find m k ≠ none := by
  induction m with
  | nil => simp [SpeakerMap.find]
  | cons hd tl ih =>
    obtain ⟨k1, v1⟩ := hd
    by_cases h : k = k1
    · simp [SpeakerMap.find, h]
    · simp only [List.map_cons, List.mem_cons, h, false_or, SpeakerMap.find, if_false]
      exact ih

theorem find_none_of_below (m : SpeakerMap) (k : String)
    (h : ∀ x ∈ m, strLt k.data x.1.data = true) : SpeakerMap.find m k = none := by
  cases hf : SpeakerMap.find m k with
  | none => rfl
  | some v =>
    have hk : k ∈ m.map Prod.fst := (mem_keys_iff m k).mpr (by simp [hf])
    obtain ⟨x, hx, hxk⟩ := List.mem_map.mp hk
    have := h x hx
    rw [hxk, strLt_irrefl] at this
    cases this

theorem find_eq_some_iff (m : SpeakerMap) (h : SpeakerMap.Ok m) (k : String)
    (v : speakerStats) : SpeakerMap.find m k = some v ↔ (k, v) ∈ m := by
  induction m with
  | nil => simp [SpeakerMap.find]
  | cons hd tl ih =>
    obtain ⟨k1, v1⟩ := hd
    have hhd := (List.pairwise_cons.mp h).1
    have htl : SpeakerMap.Ok tl := (List.pairwise_cons.mp h).2
    by_cases hk : k = k1
    · subst hk
      simp only [SpeakerMap.find, if_true, Option.some.injEq, List.mem_cons, Prod.mk.injEq,
        true_and]
      constructor
      · intro e
        exact Or.inl e.symm
      · rintro (e | e)
        · exact e.symm
        · have := hhd _ e
          simp [strLt_irrefl] at this
    · simp only [SpeakerMap.find, hk, if_false, List.mem_cons, Prod.mk.injEq, false_and,
        false_or]
      exact ih htl

theorem keys_nodup (m : SpeakerMap) (h : SpeakerMap.Ok m) : (m.map Prod.fst).Nodup := by
  induction m with
  | nil => simp
  | cons hd tl ih =>
    have hhd := (List.pairwise_cons.mp h).1
    have htl : SpeakerMap.Ok tl := (List.pairwise_cons.mp h).2
    simp only [List.map_cons, List.nodup_cons]
    refine ⟨?_, ih htl⟩
    intro hmem
    obtain ⟨x, hx, hxk⟩ := List.mem_map.mp hmem
    have := hhd x hx
    rw [hxk, strLt_irrefl] at this
    cases this

theorem length_set (m : SpeakerMap) (h : SpeakerMap.Ok m) (k : String) (v : speakerStats) :
    (SpeakerMap.set m k v).length =
      m.length + (if SpeakerMap.find m k = none then 1 else 0) := by
  induction m with
  | nil => simp [SpeakerMap.set, SpeakerMap.find]
  | cons hd tl ih =>
    obtain ⟨k1, v1⟩ := hd
    have hhd := (List.pairwise_cons.mp h).1
    have htl : SpeakerMap.Ok tl := (List.pairwise_cons.mp h).2
    simp only [SpeakerMap.set]
    split_ifs with h1 h2 h3 h4 h5
    · simp [SpeakerMap.find, h1] at h2
    · simp
    · simp
    · exfalso
      apply h4
      simp only [SpeakerMap.find, h1, if_false]
      apply find_none_of_below
      intro x hx
      exact strLt_trans _ _ _ h3 (hhd x hx)
    · simp only [SpeakerMap.find, h1, if_false] at h5
      simp [ih htl, h5]
    · simp only [SpeakerMap.find, h1, if_false] at h5
      simp [ih htl, h5]

theorem length_update_present (m : SpeakerMap) (h : SpeakerMap.Ok m) (k : String)
    (f : speakerStats → speakerStats) (hk : SpeakerMap.find m k ≠ none) :
    (SpeakerMap.update m k f).length = m.length := by
  unfold SpeakerMap.update
  rw [length_set m h, if_neg hk, Nat.add_zero]

/-! ## One call of `addSpeech` -/

theorem addSpeech_find_self (e : event) (sp : speech) :
    SpeakerMap.find (e.addSpeech sp).speakers sp.getSpeaker =
      some (((SpeakerMap.find e.speakers sp.getSpeaker).getD {}).record sp) := by
  unfold event.addSpeech
  simp only [find_update_self, at_update_self]
  by_cases h : SpeakerMap.count e.speakers sp.getSpeaker = 0
  · have hf := (count_eq_zero_iff _ _).mp h
    simp [h, hf, at_set_self, speakerStats.record]
  · simp [h, SpeakerMap.at, speakerStats.record]

theorem addSpeech_find_other (e : event) (sp : speech) (s : String)
    (h : s ≠ sp.getSpeaker) :
    SpeakerMap.find (e.addSpeech sp).speakers s = SpeakerMap.find e.speakers s := by
  unfold event.addSpeech
  simp only [find_update_other _ _ _ _ h]
  split_ifs
  · exact find_set_other _ _ _ _ h
  · rfl

theorem addSpeech_find (e : event) (sp : speech) (s : String) :
    SpeakerMap.find (e.addSpeech sp).speakers s =
      if s = sp.getSpeaker then some (((SpeakerMap.find e.speakers s).getD {}).record sp)
      else SpeakerMap.find e.speakers s := by
  split_ifs with h
  · subst h
    exact addSpeech_find_self e sp
  · exact addSpeech_find_other e sp s h

theorem addSpeech_ok (e : event) (sp : speech) (h : SpeakerMap.Ok e.speakers) :
    SpeakerMap.Ok (e.addSpeech sp).speakers := by
  unfold event.addSpeech
  simp only
  apply ok_update
  apply ok_update
  apply ok_update
  split_ifs
  · exact ok_set _ _ _ h
  · exact h

theorem addSpeech_size (e : event) (sp : speech) (h : SpeakerMap.Ok e.speakers) :
    (e.addSpeech sp).speakers.length =
      e.speakers.length + (if SpeakerMap.find e.speakers sp.getSpeaker = none then 1 else 0) := by
  unfold event.addSpeech
  simp only
  by_cases hc : SpeakerMap.count e.speakers sp.getSpeaker = 0
  · have hf := (count_eq_zero_iff _ _).mp hc
    have ok0 := ok_set e.speakers sp.getSpeaker {} h
    have ok1 := ok_update _ sp.getSpeaker
      (fun st => { st with timesSpoke := st.timesSpoke + 1 }) ok0
    have ok2 := ok_update _ sp.getSpeaker
      (fun st => { st with totalWordCount := st.totalWordCount + sp.getCount }) ok1
    rw [if_pos hc, if_pos hf]
    rw [length_update_present _ ok2 _ _ (by simp [find_update_self])]
    rw [length_update_present _ ok1 _ _ (by simp [find_update_self])]
    rw [length_update_present _ ok0 _ _ (by simp [find_set_self])]
    rw [length_set _ h, if_pos hf]
  · have hf : SpeakerMap.find e.speakers sp.getSpeaker ≠ none :=
      fun e1 => hc ((count_eq_zero_iff _ _).mpr e1)
    have ok1 := ok_update _ sp.getSpeaker
      (fun st => { st with timesSpoke := st.timesSpoke + 1 }) h
    have ok2 := ok_update _ sp.getSpeaker
      (fun st => { st with totalWordCount := st.totalWordCount + sp.getCount }) ok1
    rw [if_neg hc, if_neg hf]
    rw [length_update_present _ ok2 _ _ (by simp [find_update_self])]
    rw [length_update_present _ ok1 _ _ (by simp [find_update_self])]
    rw [length_update_present _ h _ _ hf]
    rfl

theorem addSpeech_speakerCount (e : event) (sp : speech) :
    (e.addSpeech sp).speakerCount =
      e.speakerCount + (if SpeakerMap.find e.speakers sp.getSpeaker = none then 1 else 0) := by
  unfold event.addSpeech
  simp only [count_eq_zero_iff]
  split_ifs <;> simp

theorem addSpeech_speechCount (e : event) (sp : speech) :
    (e.addSpeech sp).speechCount = e.speechCount + 1 := rfl

theorem addSpeech_speeches (e : event) (sp : speech) :
    (e.addSpeech sp).speeches = sp :: e.speeches := rfl

theorem addSpeech_totalWordCount (e : event) (sp : speech) :
    (e.addSpeech sp).totalWordCount = e.totalWordCount + sp.getCount := rfl

theorem addSpeech_date (e : event) (sp : speech) : (e.addSpeech sp).date = e.date := rfl

theorem addSpeech_name (e : event) (sp : speech) : (e.addSpeech sp).name = e.name := rfl

/-! ## A sequence of calls of `addSpeech` -/

theorem addAll_nil (e : event) : e.addAll [] = e := rfl

theorem addAll_cons (e : event) (sp : speech) (sps : List speech) :
    e.addAll (sp :: sps) = (e.addSpeech sp).addAll sps := rfl

theorem addAll_append (e : event) (sps1 sps2 : List speech) :
    e.addAll (sps1 ++ sps2) = (e.addAll sps1).addAll sps2 := by
  simp [event.addAll, List.foldl_append]

theorem addAll_speechCount (e : event) (sps : List speech) :
    (e.addAll sps).speechCount = e.speechCount + sps.length := by
  induction sps generalizing e with
  | nil => simp [addAll_nil]
  | cons sp rest ih =>
    rw [addAll_cons, ih, addSpeech_speechCount]
    simp only [List.length_cons]
    push_cast
    ring

theorem addAll_speeches_length (e : event) (sps : List speech) :
    (e.addAll sps).speeches.length = e.speeches.length + sps.length := by
  induction sps generalizing e with
  | nil => simp [addAll_nil]
  | cons sp rest ih =>
    rw [addAll_cons, ih, addSpeech_speeches]
    simp only [List.length_cons]
    omega

theorem addAll_speeches (e : event) (sps : List speech) :
    (e.addAll sps).speeches = sps.reverse ++ e.speeches := by
  induction sps generalizing e with
  | nil => simp [addAll_nil]
  | cons sp rest ih =>
    rw [addAll_cons, ih, addSpeech_speeches]
    simp

theorem addAll_totalWordCount (e : event) (sps : List speech) :
    (e.addAll sps).totalWordCount = e.totalWordCount + (sps.map speech.getCount).sum := by
  induction sps generalizing e with
  | nil => simp [addAll_nil]
  | cons sp rest ih =>
    rw [addAll_cons, ih, addSpeech_totalWordCount]
    simp only [List.map_cons, List.sum_cons]
    ring

theorem addAll_date (e : event) (sps : List speech) : (e.addAll sps).date = e.date := by
  induction sps generalizing e with
  | nil => rfl
  | cons sp rest ih => rw [addAll_cons, ih, addSpeech_date]

theorem addAll_ok (e : event) (sps : List speech) (h : SpeakerMap.Ok e.speakers) :
    SpeakerMap.Ok (e.addAll sps).speakers := by
  induction sps generalizing e with
  | nil => exact h
  | cons sp rest ih =>
    rw [addAll_cons]
    exact ih _ (addSpeech_ok e sp h)

theorem addAll_speakerCount (e : event) (sps : List speech) (h : SpeakerMap.Ok e.speakers)
    (hc : e.speakerCount = (e.speakers.length : Int)) :
    (e.addAll sps).speakerCount = ((e.addAll sps).speakers.length : Int) := by
  induction sps generalizing e with
  | nil => exact hc
  | cons sp rest ih =>
    rw [addAll_cons]
    apply ih _ (addSpeech_ok e sp h)
    rw [addSpeech_speakerCount, addSpeech_size e sp h, hc]
    split_ifs <;> simp

theorem speechTotals_cons (v0 : speakerStats) (sp : speech) (rest : List speech) :
    speechTotals v0 (sp :: rest) = speechTotals (v0.record sp) rest := by
  simp only [speechTotals, speakerStats.record, List.length_cons, List.map_cons,
    List.sum_cons, speakerStats.mk.injEq, and_true]
  refine ⟨?_, ?_, ?_⟩
  · push_cast
    ring
  · ring
  · ring

theorem speechTotals_nil (v0 : speakerStats) : speechTotals v0 [] = v0 := by
  simp [speechTotals]

theorem addAll_find (e : event) (sps : List speech) (s : String) :
    SpeakerMap.find (e.addAll sps).speakers s =
      if speechesOf s sps = [] then SpeakerMap.find e.speakers s
      else some (speechTotals ((SpeakerMap.find e.speakers s).getD {}) (speechesOf s sps)) := by
  induction sps generalizing e with
  | nil => simp [addAll_nil, speechesOf]
  | cons sp rest ih =>
    rw [addAll_cons, ih, addSpeech_find]
    by_cases h : s = sp.getSpeaker
    · subst h
      have hcons : speechesOf sp.getSpeaker (sp :: rest) = sp :: speechesOf sp.getSpeaker rest := by
        simp [speechesOf]
      rw [hcons, if_pos rfl, if_neg (List.cons_ne_nil _ _), speechTotals_cons]
      split_ifs with h2
      · rw [h2, speechTotals_nil]
      · rfl
    · have hcons : speechesOf s (sp :: rest) = speechesOf s rest := by
        simp [speechesOf, Ne.symm h]
      rw [hcons, if_neg h]

/-! ## Termination of the loop of `countWord` -/

theorem findAux_bounds (p : Char → Bool) (cs : List Char) (i q : Nat)
    (h : findAux p cs i = some q) : i ≤ q ∧ q < i + cs.length := by
  induction cs generalizing i with
  | nil => simp [findAux] at h
  | cons c rest ih =>
    simp only [findAux] at h
    split_ifs at h
    · simp only [Option.some.injEq] at h
      simp only [List.length_cons]
      omega
    · have := ih (i + 1) h
      simp only [List.length_cons]
      omega

theorem find_first_of_bounds (s : List Char) (pos q : Nat)
    (h : find_first_of s pos = some q) : pos ≤ q ∧ q < s.length := by
  have hb := findAux_bounds isDelim (s.drop pos) pos q h
  have hl : (s.drop pos).length = s.length - pos := List.length_drop pos s
  omega

theorem skipAux_bounds (cs : List Char) (i : Nat) :
    i ≤ skipAux cs i ∧ skipAux cs i ≤ i + cs.length := by
  induction cs generalizing i with
  | nil => simp [skipAux]
  | cons c rest ih =>
    simp only [skipAux]
    split_ifs
    · simp
    · have := ih (i + 1)
      simp only [List.length_cons]
      omega

theorem skipNonAlnum_bounds (s : List Char) (pos : Nat) (h : pos ≤ s.length) :
    pos ≤ skipNonAlnum s pos ∧ skipNonAlnum s pos ≤ s.length := by
  have hb := skipAux_bounds (s.drop pos) pos
  have hl : (s.drop pos).length = s.length - pos := List.length_drop pos s
  unfold skipNonAlnum
  omega

theorem countWordLoop_none (s : List Char) (fuel : Nat) (count : Int) :
    countWordLoop s (fuel + 1) count none = some count := rfl

theorem countWordLoop_terminates (s : List Char) (fuel : Nat) (count : Int) (pos : Nat)
    (hpos : pos ≤ s.length) (hfuel : s.length + 2 ≤ fuel + pos) :
    ∃ n, countWordLoop s fuel count (some pos) = some n := by
  induction fuel generalizing count pos with
  | zero => omega
  | succ fuel ih =>
    simp only [countWordLoop]
    cases hf : find_first_of s (pos + 1) with
    | none =>
      obtain ⟨f1, rfl⟩ : ∃ f1, fuel = f1 + 1 := ⟨fuel - 1, by omega⟩
      exact ⟨count + 1, rfl⟩
    | some q =>
      have hq := find_first_of_bounds s (pos + 1) q hf
      have hs := skipNonAlnum_bounds s q (by omega)
      simp only [Option.map_some']
      exact ih (count + 1) (skipNonAlnum s q) hs.2 (by omega)

/-- The fuel `transcript.length() + 2` given to the loop of `countWord` is enough:
the loop ends and returns a count. -/
theorem countWordFuel_length (s : List Char) :
    ∃ n, countWordFuel (s.length + 2) s = some n := by
  unfold countWordFuel
  cases hf : find_first_of s 0 with
  | none => exact ⟨0, rfl⟩
  | some q =>
    have hq := find_first_of_bounds s 0 q hf
    exact countWordLoop_terminates s _ 0 q (by omega) (by omega)

theorem countWord_spec (t : String) :
    countWordFuel (t.data.length + 2) t.data = some (countWord t) := by
  obtain ⟨n, hn⟩ := countWordFuel_length t.data
  unfold countWord
  rw [hn]
  rfl
/-! ## The conversion of the speaking time to `int` -/

theorem floatToInt_of_int (n : Int) (h1 : -(2 : Int) ^ 31 ≤ n) (h2 : n < (2 : Int) ^ 31) :
    floatToInt (n : ℚ) = n := by
  unfold floatToInt
  simp only [Rat.intCast_num, Rat.intCast_den, Nat.cast_one, Int.tdiv_one]
  rw [if_pos ⟨h1, h2⟩]

theorem getLength_of_int (sp : speech) (n : Int) (h : sp.length = (n : ℚ))
    (h1 : -(2 : Int) ^ 31 ≤ n) (h2 : n < (2 : Int) ^ 31) :
    sp.getLength = n := by
  unfold speech.getLength
  rw [h]
  exact floatToInt_of_int n h1 h2

theorem new_ok (nameString dateString : String) :
    SpeakerMap.Ok (event.new nameString dateString).speakers := ok_nil

theorem speechesOf_eq_nil_iff (s : String) (sps : List speech) :
    speechesOf s sps = [] ↔ s ∉ sps.map speech.getSpeaker := by
  unfold speechesOf
  rw [List.filter_eq_nil_iff]
  simp only [decide_eq_true_eq, List.mem_map, not_exists, not_and]

theorem fresh_find (nameString dateString : String) (sps : List speech) (s : String) :
    SpeakerMap.find ((event.new nameString dateString).addAll sps).speakers s =
      if speechesOf s sps = [] then none else some (speechTotals {} (speechesOf s sps)) := by
  rw [addAll_find]
  rfl

theorem fresh_mem_keys (nameString dateString : String) (sps : List speech) (s : String) :
    s ∈ ((event.new nameString dateString).addAll sps).speakers.map Prod.fst ↔
      s ∈ sps.map speech.getSpeaker := by
  rw [mem_keys_iff, fresh_find]
  by_cases h : speechesOf s sps = []
  · simp only [h, if_true, ne_eq, not_true_eq_false, false_iff]
    exact (speechesOf_eq_nil_iff s sps).mp h
  · simp only [h, if_false, ne_eq, reduceCtorEq, not_false_eq_true, true_iff]
    by_contra hc
    exact h ((speechesOf_eq_nil_iff s sps).mpr hc)

theorem fresh_entry (nameString dateString : String) (sps : List speech)
    (p : String × speakerStats)
    (hp : p ∈ ((event.new nameString dateString).addAll sps).speakers) :
    speechesOf p.1 sps ≠ [] ∧ p.2 = speechTotals {} (speechesOf p.1 sps) := by
  have hok := addAll_ok _ sps (new_ok nameString dateString)
  have hf := (find_eq_some_iff _ hok p.1 p.2).mpr hp
  rw [fresh_find] at hf
  split_ifs at hf with h
  exact ⟨h, (Option.some.inj hf).symm⟩

theorem fresh_size (nameString dateString : String) (sps : List speech) :
    ((event.new nameString dateString).addAll sps).speakers.length =
      (sps.map speech.getSpeaker).dedup.length := by
  have hok := addAll_ok _ sps (new_ok nameString dateString)
  have hnd := keys_nodup _ hok
  have hperm : List.Perm (((event.new nameString dateString).addAll sps).speakers.map Prod.fst)
      (sps.map speech.getSpeaker).dedup := by
    rw [List.perm_ext_iff_of_nodup hnd (List.nodup_dedup _)]
    intro a
    rw [fresh_mem_keys, List.mem_dedup]
  have := hperm.length_eq
  rwa [List.length_map] at this

/-! ## The roll-up -/

theorem rollupEntry_find_self (all : SpeakerMap) (p : String × speakerStats) :
    SpeakerMap.find (rollupEntry all p) p.1 = some (mergeStats (SpeakerMap.find all p.1) p.2) := by
  unfold rollupEntry
  by_cases h : SpeakerMap.count all p.1 = 0
  · have hf := (count_eq_zero_iff _ _).mp h
    simp only [h, if_true, find_update_self, at_update_self]
    simp [SpeakerMap.at, hf, mergeStats]
  · simp only [h, if_false, find_update_self, at_update_self]
    have hf : SpeakerMap.find all p.1 ≠ none := fun e1 => h ((count_eq_zero_iff _ _).mpr e1)
    obtain ⟨v, hv⟩ := Option.ne_none_iff_exists'.mp hf
    simp [SpeakerMap.at, hv, mergeStats]

theorem rollupEntry_find_other (all : SpeakerMap) (p : String × speakerStats) (s : String)
    (h : s ≠ p.1) : SpeakerMap.find (rollupEntry all p) s = SpeakerMap.find all s := by
  unfold rollupEntry
  split_ifs <;> simp only [find_update_other _ _ _ _ h]

theorem rollupEntry_ok (all : SpeakerMap) (p : String × speakerStats)
    (h : SpeakerMap.Ok all) : SpeakerMap.Ok (rollupEntry all p) := by
  unfold rollupEntry
  split_ifs <;> exact ok_update _ _ _ (ok_update _ _ _ (ok_update _ _ _ (ok_update _ _ _ h)))

theorem foldl_rollupEntry_ok (entries : SpeakerMap) (all : SpeakerMap)
    (h : SpeakerMap.Ok all) : SpeakerMap.Ok (entries.foldl rollupEntry all) := by
  induction entries generalizing all with
  | nil => exact h
  | cons p rest ih => exact ih _ (rollupEntry_ok all p h)

theorem foldl_rollupEntry_find (entries : SpeakerMap) (all : SpeakerMap) (s : String) :
    SpeakerMap.find (entries.foldl rollupEntry all) s =
      mergeAll (SpeakerMap.find all s) (entriesOf s entries) := by
  induction entries generalizing all with
  | nil => rfl
  | cons p rest ih =>
    rw [List.foldl_cons, ih]
    by_cases h : s = p.1
    · subst h
      rw [rollupEntry_find_self]
      simp [entriesOf, mergeAll]
    · rw [rollupEntry_find_other all p s h]
      have : entriesOf s (p :: rest) = entriesOf s rest := by
        simp [entriesOf, Ne.symm h]
      rw [this]

theorem mergeAll_append (o : Option speakerStats) (l1 l2 : List speakerStats) :
    mergeAll o (l1 ++ l2) = mergeAll (mergeAll o l1) l2 := by
  simp [mergeAll, List.foldl_append]

theorem foldl_rollupEvent_ok (events : List event) (all : SpeakerMap)
    (h : SpeakerMap.Ok all) : SpeakerMap.Ok (events.foldl rollupEvent all) := by
  induction events generalizing all with
  | nil => exact h
  | cons e rest ih => exact ih _ (foldl_rollupEntry_ok _ all h)

theorem foldl_rollupEvent_find (events : List event) (all : SpeakerMap) (s : String) :
    SpeakerMap.find (events.foldl rollupEvent all) s =
      mergeAll (SpeakerMap.find all s)
        (events.flatMap (fun e => entriesOf s e.getSpeakers)) := by
  induction events generalizing all with
  | nil => rfl
  | cons e rest ih =>
    rw [List.foldl_cons, ih, List.flatMap_cons, mergeAll_append]
    unfold rollupEvent
    rw [foldl_rollupEntry_find]

theorem mergeAll_some (v : speakerStats) (l : List speakerStats) :
    mergeAll (some v) l = some
      { timesSpoke := v.timesSpoke + (l.map speakerStats.timesSpoke).sum
        totalWordCount := v.totalWordCount + (l.map speakerStats.totalWordCount).sum
        totalSpeakingTime := v.totalSpeakingTime + (l.map speakerStats.totalSpeakingTime).sum
        appearances := v.appearances + (l.length : Int) } := by
  induction l generalizing v with
  | nil => simp [mergeAll]
  | cons st rest ih =>
    have hstep : mergeAll (some v) (st :: rest) = mergeAll (some (mergeStats (some v) st)) rest :=
      rfl
    rw [hstep, ih]
    simp only [mergeStats, List.map_cons, List.sum_cons, List.length_cons, Option.some.injEq,
      speakerStats.mk.injEq]
    refine ⟨by ring, by ring, by ring, ?_⟩
    push_cast
    ring

theorem mergeAll_none (l : List speakerStats) :
    mergeAll none l = if l = [] then none else some (rollTotals l) := by
  cases l with
  | nil => rfl
  | cons st rest =>
    have hstep : mergeAll none (st :: rest) = mergeAll (some (mergeStats none st)) rest := rfl
    rw [hstep, mergeAll_some, if_neg (List.cons_ne_nil _ _)]
    simp only [mergeStats, rollTotals, List.map_cons, List.sum_cons, List.length_cons,
      Option.some.injEq, speakerStats.mk.injEq, true_and]
    push_cast
    ring

theorem allSpeakers_ok (events : List event) :
    SpeakerMap.Ok (speakerMenu_allSpeakers events) :=
  foldl_rollupEvent_ok events [] ok_nil

theorem allSpeakers_find (events : List event) (s : String) :
    SpeakerMap.find (speakerMenu_allSpeakers events) s =
      if events.flatMap (fun e => entriesOf s e.getSpeakers) = [] then none
      else some (rollTotals (events.flatMap (fun e => entriesOf s e.getSpeakers))) := by
  unfold speakerMenu_allSpeakers
  rw [foldl_rollupEvent_find, ← mergeAll_none]
  rfl

theorem rollTotals_perm (l1 l2 : List speakerStats) (h : l1.Perm l2) :
    rollTotals l1 = rollTotals l2 := by
  simp only [rollTotals, speakerStats.mk.injEq]
  exact ⟨(h.map _).sum_eq, (h.map _).sum_eq, (h.map _).sum_eq, by rw [h.length_eq]⟩

theorem map_ext_of_ok (m1 m2 : SpeakerMap) (h1 : SpeakerMap.Ok m1) (h2 : SpeakerMap.Ok m2)
    (h : ∀ k, SpeakerMap.find m1 k = SpeakerMap.find m2 k) : m1 = m2 := by
  induction m1 generalizing m2 with
  | nil =>
    cases m2 with
    | nil => rfl
    | cons hd tl =>
      have := h hd.1
      simp [SpeakerMap.find] at this
  | cons hd1 tl1 ih =>
    cases m2 with
    | nil =>
      have := h hd1.1
      simp [SpeakerMap.find] at this
    | cons hd2 tl2 =>
      obtain ⟨k1, v1⟩ := hd1
      obtain ⟨k2, v2⟩ := hd2
      have hhd1 := (List.pairwise_cons.mp h1).1
      have htl1 : SpeakerMap.Ok tl1 := (List.pairwise_cons.mp h1).2
      have hhd2 := (List.pairwise_cons.mp h2).1
      have htl2 : SpeakerMap.Ok tl2 := (List.pairwise_cons.mp h2).2
      have hk : k1 = k2 := by
        by_contra hne
        have e1 := h k1
        have e2 := h k2
        simp only [SpeakerMap.find, if_true, hne, if_false, Ne.symm hne] at e1 e2
        have m1 : (k1, v1) ∈ tl2 := (find_eq_some_iff tl2 htl2 k1 v1).mp e1.symm
        have m2 : (k2, v2) ∈ tl1 := (find_eq_some_iff tl1 htl1 k2 v2).mp e2
        have l1 := hhd2 _ m1
        have l2 := hhd1 _ m2
        have := strLt_asymm _ _ l1
        simp only at l2 this
        rw [l2] at this
        cases this
      subst hk
      have hv : v1 = v2 := by
        have := h k1
        simpa [SpeakerMap.find] using this
      subst hv
      congr 1
      apply ih tl2 htl1 htl2
      intro k
      by_cases hkk : k = k1
      · subst hkk
        rw [find_none_of_below tl1 k hhd1, find_none_of_below tl2 k hhd2]
      · have := h k
        simpa [SpeakerMap.find, hkk] using this

theorem entriesOf_of_ok (m : SpeakerMap) (h : SpeakerMap.Ok m) (s : String) :
    entriesOf s m = (SpeakerMap.find m s).toList := by
  induction m with
  | nil => rfl
  | cons hd tl ih =>
    obtain ⟨k1, v1⟩ := hd
    have hhd := (List.pairwise_cons.mp h).1
    have htl : SpeakerMap.Ok tl := (List.pairwise_cons.mp h).2
    by_cases hk : s = k1
    · subst hk
      have hnone := find_none_of_below tl s hhd
      have ih1 := ih htl
      rw [hnone] at ih1
      simp only [entriesOf, SpeakerMap.find, if_true, Option.toList_some, List.filter_cons,
        decide_True, List.map_cons, List.cons.injEq, true_and]
      exact ih1
    · have ih1 := ih htl
      simp only [entriesOf, SpeakerMap.find, hk, if_false, List.filter_cons, Ne.symm hk,
        decide_False] at ih1 ⊢
      exact ih1

theorem flatMap_entriesOf_of_ok (events : List event)
    (hok : ∀ e ∈ events, SpeakerMap.Ok e.getSpeakers) (s : String) :
    events.flatMap (fun e => entriesOf s e.getSpeakers) = perEventStats s events := by
  induction events with
  | nil => rfl
  | cons e rest ih =>
    have he := hok e (List.mem_cons_self _ _)
    have hrest := ih (fun x hx => hok x (List.mem_cons_of_mem _ hx))
    rw [List.flatMap_cons, hrest, entriesOf_of_ok _ he]
    unfold perEventStats
    rw [List.filterMap_cons]
    cases SpeakerMap.find e.getSpeakers s <;> rfl

theorem allSpeakers_find_of_ok (events : List event)
    (hok : ∀ e ∈ events, SpeakerMap.Ok e.getSpeakers) (s : String) :
    SpeakerMap.find (speakerMenu_allSpeakers events) s =
      if perEventStats s events = [] then none
      else some (rollTotals (perEventStats s events)) := by
  rw [allSpeakers_find, flatMap_entriesOf_of_ok events hok]

theorem perEventStats_eq_nil_iff (s : String) (events : List event) :
    perEventStats s events = [] ↔ ∀ e ∈ events, s ∉ e.getSpeakers.map Prod.fst := by
  unfold perEventStats
  rw [List.filterMap_eq_nil_iff]
  constructor
  · intro h e he hmem
    exact (mem_keys_iff _ _).mp hmem (h e he)
  · intro h e he
    by_contra hne
    exact h e he ((mem_keys_iff _ _).mpr hne)

theorem perEventStats_length (s : String) (events : List event) :
    (perEventStats s events).length =
      (events.filter (fun e => decide (s ∈ e.getSpeakers.map Prod.fst))).length := by
  induction events with
  | nil => rfl
  | cons e rest ih =>
    unfold perEventStats at ih ⊢
    rw [List.filterMap_cons, List.filter_cons]
    cases hf : SpeakerMap.find e.getSpeakers s with
    | none =>
      have : ¬ s ∈ e.getSpeakers.map Prod.fst := fun hm => (mem_keys_iff _ _).mp hm hf
      simp only [this, decide_False]
      exact ih
    | some v =>
      have : s ∈ e.getSpeakers.map Prod.fst := (mem_keys_iff _ _).mpr (by simp [hf])
      simp only [this, decide_True, if_true, List.length_cons]
      rw [ih]

theorem sample_ok : ∀ e ∈ [sampleEventA, sampleEventB], SpeakerMap.Ok e.getSpeakers := by
  intro e he
  simp only [List.mem_cons, List.mem_singleton, List.not_mem_nil, or_false] at he
  rcases he with rfl | rfl
  · exact addAll_ok _ _ (new_ok _ _)
  · exact addAll_ok _ _ (new_ok _ _)

/-! ## The grouping step of `readFile` -/

theorem groupStep_same (st : ReadState) (r : Row) (evs : List event) (cur : event)
    (hall : st.allSpeeches = evs ++ [cur]) (hd : r.date = st.prevDate) :
    groupStep st r = some
      { lineNumber := st.lineNumber + 1
        prevDate := st.prevDate
        allSpeeches := evs ++ [cur.addSpeech
          (speech.new (st.lineNumber + 1) r.speaker r.script (floatOfInt r.length))] } := by
  unfold groupStep
  simp only [hd, ne_eq, not_true_eq_false, if_false, hall, List.getLast?_concat,
    List.dropLast_concat]

theorem groupStep_new (st : ReadState) (r : Row) (hd : r.date ≠ st.prevDate) :
    groupStep st r = some
      { lineNumber := 1
        prevDate := r.date
        allSpeeches := st.allSpeeches ++ [(event.new r.eventName r.date).addSpeech
          (speech.new 1 r.speaker r.script (floatOfInt r.length))] } := by
  unfold groupStep
  simp only [hd, ne_eq, not_false_eq_true, if_true, List.getLast?_concat, List.dropLast_concat]

theorem readRows_append (st : ReadState) (rows1 rows2 : List Row) :
    readRows st (rows1 ++ rows2) =
      (readRows st rows1).bind (fun st1 => readRows st1 rows2) := by
  induction rows1 generalizing st with
  | nil => rfl
  | cons r rest ih =>
    simp only [List.cons_append, readRows]
    cases groupStep st r with
    | none => rfl
    | some st1 => exact ih st1

theorem headD_reverse_of_const (a : String) (g : List String) (h : ∀ x ∈ g, x = a) :
    (a :: g).reverse.headD "" = a := by
  induction g using List.reverseRecOn with
  | nil => rfl
  | append_singleton g0 x _ =>
    have hx : x = a := h x (by simp)
    simp [hx]

theorem runInfo_current (a : String) (g : List String) (h : ∀ x ∈ g, x = a) :
    runInfo (a :: g).reverse = (a, ((g.length : Int) + 1), g.length + 1) := by
  unfold runInfo
  rw [headD_reverse_of_const a g h]
  simp

theorem readRows_splitBy_loop (rows : List Row) (st : ReadState) (evs : List event)
    (cur : event) (g : List String) (gs : List (List String))
    (hall : st.allSpeeches = evs ++ [cur])
    (hcur : eventInfo cur = (st.prevDate, (g.length : Int) + 1, g.length + 1))
    (hg : ∀ x ∈ g, x = st.prevDate)
    (hevs : evs.map eventInfo = gs.reverse.map runInfo) :
    ∃ st1, readRows st rows = some st1 ∧
      st1.allSpeeches.map eventInfo =
        (List.splitBy.loop (fun a b => a == b) (rows.map Row.date) st.prevDate g gs).map
          runInfo := by
  induction rows generalizing st evs cur g gs with
  | nil =>
    refine ⟨st, rfl, ?_⟩
    simp only [List.map_nil, List.splitBy.loop, List.reverse_cons _ gs, List.map_append,
      List.map_cons]
    rw [hall, List.map_append, hevs, runInfo_current _ g hg, ← hcur]
    rfl
  | cons r rest ih =>
    by_cases hd : r.date = st.prevDate
    · -- the row continues the current run
      have hstep := groupStep_same st r evs cur hall hd
      simp only [readRows, hstep, List.map_cons]
      have hR : (st.prevDate == r.date) = true := by simp [hd]
      rw [List.splitBy.loop, hR]
      simp only
      have hinfo : eventInfo (cur.addSpeech
          (speech.new (st.lineNumber + 1) r.speaker r.script (floatOfInt r.length)))
          = (st.prevDate, (((st.prevDate :: g).length : Nat) : Int) + 1,
              (st.prevDate :: g).length + 1) := by
        have h1 := congrArg Prod.fst hcur
        have h2 := congrArg (fun x => x.2.1) hcur
        have h3 := congrArg (fun x => x.2.2) hcur
        simp only [eventInfo, event.getDate, event.getSpeechCount] at h1 h2 h3
        simp only [eventInfo, event.getDate, event.getSpeechCount, addSpeech_date,
          addSpeech_speechCount, addSpeech_speeches, List.length_cons, h1, h2, h3]
        push_cast
        rfl
      have := ih
        { lineNumber := st.lineNumber + 1
          prevDate := st.prevDate
          allSpeeches := evs ++ [cur.addSpeech
            (speech.new (st.lineNumber + 1) r.speaker r.script (floatOfInt r.length))] }
        evs _ (st.prevDate :: g) gs rfl hinfo
        (by
          intro x hx
          rcases List.mem_cons.mp hx with h | h
          · exact h
          · exact hg x h)
        hevs
      rw [hd]
      exact this
    · -- the row starts a new run
      have hstep := groupStep_new st r hd
      simp only [readRows, hstep, List.map_cons]
      have hR : (st.prevDate == r.date) = false := by
        simp [Ne.symm hd]
      rw [List.splitBy.loop, hR]
      simp only
      have hinfo : eventInfo ((event.new r.eventName r.date).addSpeech
          (speech.new 1 r.speaker r.script (floatOfInt r.length)))
          = (r.date, ((([] : List String).length : Nat) : Int) + 1,
              ([] : List String).length + 1) := by
        simp [eventInfo, event.getDate, event.getSpeechCount, addSpeech_date,
          addSpeech_speechCount, addSpeech_speeches, event.new]
      exact ih
        { lineNumber := 1
          prevDate := r.date
          allSpeeches := st.allSpeeches ++ [(event.new r.eventName r.date).addSpeech
            (speech.new 1 r.speaker r.script (floatOfInt r.length))] }
        st.allSpeeches _ [] ((st.prevDate :: g).reverse :: gs) rfl hinfo
        (by simp)
        (by
          rw [hall, List.map_append, hevs, List.reverse_cons _ gs, List.map_append,
            List.map_cons, List.map_cons, List.map_nil, List.map_nil,
            runInfo_current _ g hg, ← hcur])

theorem readRows_init_runs (rows : List Row) (hdates : ∀ r ∈ rows, r.date ≠ "") :
    ∃ st, readRows ReadState.init rows = some st ∧
      st.allSpeeches.map eventInfo = (dateRuns (rows.map Row.date)).map runInfo := by
  cases rows with
  | nil => exact ⟨ReadState.init, rfl, rfl⟩
  | cons r rest =>
    have hd : r.date ≠ ReadState.init.prevDate := hdates r (List.mem_cons_self _ _)
    have hstep := groupStep_new ReadState.init r hd
    simp only [readRows, hstep, dateRuns, List.map_cons, List.splitBy]
    exact readRows_splitBy_loop rest
      { lineNumber := 1
        prevDate := r.date
        allSpeeches := ReadState.init.allSpeeches ++ [(event.new r.eventName r.date).addSpeech
          (speech.new 1 r.speaker r.script (floatOfInt r.length))] }
      [] _ [] [] rfl
      (by simp [eventInfo, event.getDate, event.getSpeechCount, addSpeech_date,
          addSpeech_speechCount, addSpeech_speeches, event.new])
      (by simp) rfl

theorem groupStep_ok (st : ReadState) (r : Row)
    (h : st.allSpeeches ≠ [] ∨ r.date ≠ st.prevDate) :
    ∃ st1, groupStep st r = some st1 ∧ st1.prevDate = r.date ∧ st1.allSpeeches ≠ [] ∧
      st1.allSpeeches.length = st.allSpeeches.length + (if r.date = st.prevDate then 0 else 1) := by
  by_cases hd : r.date = st.prevDate
  · have hne : st.allSpeeches ≠ [] := by
      rcases h with h | h
      · exact h
      · exact absurd hd h
    obtain ⟨evs, cur, hall⟩ : ∃ evs cur, st.allSpeeches = evs ++ [cur] :=
      ⟨st.allSpeeches.dropLast, st.allSpeeches.getLast hne,
        (List.dropLast_append_getLast hne).symm⟩
    refine ⟨_, groupStep_same st r evs cur hall hd, hd.symm, by simp, ?_⟩
    simp [hall, hd]
  · refine ⟨_, groupStep_new st r hd, rfl, by simp, ?_⟩
    simp [hd]

theorem readRows_state (rows : List Row) (st : ReadState) (h : st.allSpeeches ≠ []) :
    ∃ st1, readRows st rows = some st1 ∧ st1.allSpeeches ≠ [] ∧
      st1.prevDate = (rows.getLast?.map Row.date).getD st.prevDate := by
  induction rows generalizing st with
  | nil => exact ⟨st, rfl, h, rfl⟩
  | cons r rest ih =>
    obtain ⟨st1, hstep, hprev, hne, _⟩ := groupStep_ok st r (Or.inl h)
    obtain ⟨st2, hrun, hne2, hprev2⟩ := ih st1 hne
    refine ⟨st2, by simp only [readRows, hstep, hrun], hne2, ?_⟩
    rw [hprev2, hprev]
    cases rest with
    | nil => rfl
    | cons r2 rest2 =>
      rw [List.getLast?_cons_cons,
        List.getLast?_eq_getLast (r2 :: rest2) (List.cons_ne_nil _ _)]
      rfl

theorem readRows_init_state (rows : List Row) (hdates : ∀ r ∈ rows, r.date ≠ "") :
    ∃ st, readRows ReadState.init rows = some st ∧ st.prevDate = lastDate rows ∧
      (rows ≠ [] → st.allSpeeches ≠ []) := by
  cases rows with
  | nil => exact ⟨ReadState.init, rfl, rfl, fun h => absurd rfl h⟩
  | cons r rest =>
    have hd : r.date ≠ ReadState.init.prevDate := hdates r (List.mem_cons_self _ _)
    obtain ⟨st1, hstep, hprev, hne, _⟩ := groupStep_ok ReadState.init r (Or.inr hd)
    obtain ⟨st2, hrun, hne2, hprev2⟩ := readRows_state rest st1 hne
    refine ⟨st2, by simp only [readRows, hstep, hrun], ?_, fun _ => hne2⟩
    rw [hprev2, hprev]
    unfold lastDate
    cases rest with
    | nil => rfl
    | cons r2 rest2 =>
      rw [List.getLast?_cons_cons,
        List.getLast?_eq_getLast (r2 :: rest2) (List.cons_ne_nil _ _)]
      rfl

/-! ## Averages -/

theorem intDiv_of_pos (a b : Int) (ha : 0 ≤ a) (hb : 1 ≤ b) :
    ∃ q, intDiv a b = some q ∧ q = ⌊(a : ℚ) / (b : ℚ)⌋ ∧ 0 ≤ q ∧ q * b ≤ a ∧ a < (q + 1) * b := by
  have hb0 : b ≠ 0 := by omega
  have hbpos : (0 : Int) < b := by omega
  refine ⟨a / b, ?_, ?_, ?_, ?_, ?_⟩
  · unfold intDiv
    rw [if_neg hb0, Int.tdiv_eq_ediv ha (by omega)]
  · have hcast : (b : ℚ) = ((b.toNat : ℕ) : ℚ) := by
      have : ((b.toNat : ℕ) : Int) = b := Int.toNat_of_nonneg (by omega)
      exact_mod_cast this.symm
    rw [hcast, Rat.floor_intCast_div_natCast]
    rw [Int.toNat_of_nonneg (by omega)]
  · exact Int.ediv_nonneg ha (by omega)
  · exact Int.ediv_mul_le a hb0
  · exact Int.lt_ediv_add_one_mul_self a hbpos

theorem intDiv_eq_none_iff (a b : Int) : intDiv a b = none ↔ b = 0 := by
  unfold intDiv
  split_ifs with h <;> simp [h]

/-! ## Sorting -/

theorem insertBy_perm {α : Type} (comp : α → α → Bool) (x : α) (l : List α) :
    (insertBy comp x l).Perm (x :: l) := by
  induction l with
  | nil => exact List.Perm.refl _
  | cons y ys ih =>
    simp only [insertBy]
    split_ifs
    · exact (List.Perm.cons y ih).trans (List.Perm.swap x y ys)
    · exact List.Perm.refl _

theorem stdSort_perm {α : Type} (comp : α → α → Bool) (l : List α) :
    (stdSort comp l).Perm l := by
  induction l with
  | nil => exact List.Perm.refl _
  | cons x xs ih =>
    simp only [stdSort]
    exact (insertBy_perm comp x _).trans (List.Perm.cons x ih)

theorem insertBy_sorted {α : Type} (comp : α → α → Bool)
    (hasymm : ∀ a b, comp a b = true → comp b a = false)
    (hneg : ∀ a b c, comp a b = false → comp b c = false → comp a c = false)
    (x : α) (l : List α) (h : l.Pairwise (fun a b => comp b a = false)) :
    (insertBy comp x l).Pairwise (fun a b => comp b a = false) := by
  induction l with
  | nil => simp [insertBy]
  | cons y ys ih =>
    have hy := (List.pairwise_cons.mp h).1
    have hys := (List.pairwise_cons.mp h).2
    simp only [insertBy]
    split_ifs with hc
    · refine List.pairwise_cons.mpr ⟨?_, ih hys⟩
      intro z hz
      rcases List.mem_cons.mp ((insertBy_perm comp x ys).subset hz) with hzx | hzy
      · rw [hzx]
        exact hasymm y x hc
      · exact hy z hzy
    · have hc1 : comp y x = false := by simpa using hc
      refine List.pairwise_cons.mpr ⟨?_, h⟩
      intro z hz
      rcases List.mem_cons.mp hz with hzy | hzy
      · rw [hzy]
        exact hc1
      · exact hneg z y x (hy z hzy) hc1

theorem stdSort_sorted {α : Type} (comp : α → α → Bool)
    (hasymm : ∀ a b, comp a b = true → comp b a = false)
    (hneg : ∀ a b c, comp a b = false → comp b c = false → comp a c = false)
    (l : List α) : (stdSort comp l).Pairwise (fun a b => comp b a = false) := by
  induction l with
  | nil => simp [stdSort]
  | cons x xs ih =>
    simp only [stdSort]
    exact insertBy_sorted comp hasymm hneg x _ ih

theorem strLt_neg_trans (a b c : List Char) (h1 : strLt a b = false) (h2 : strLt b c = false) :
    strLt a c = false := by
  cases hac : strLt a c with
  | false => rfl
  | true =>
    by_cases hab : a = b
    · subst hab
      rw [hac] at h2
      cases h2
    · rcases strLt_total a b hab with h | h
      · rw [h] at h1
        cases h1
      · have := strLt_trans b a c h hac
        rw [this] at h2
        cases h2

theorem sortEventDate_asymm (a b : event) (h : sortEventDate a b = true) :
    sortEventDate b a = false :=
  strLt_asymm _ _ h

theorem sortEventDate_neg_trans (a b c : event) (h1 : sortEventDate a b = false)
    (h2 : sortEventDate b c = false) : sortEventDate a c = false :=
  strLt_neg_trans _ _ _ h2 h1

theorem dates_eq_of_sorted (l1 l2 : List event) (hp : l1.Perm l2)
    (h1 : l1.Pairwise (fun a b => sortEventDate b a = false))
    (h2 : l2.Pairwise (fun a b => sortEventDate b a = false)) :
    l1.map event.getDate = l2.map event.getDate := by
  haveI : IsAntisymm String (fun x y => strLt x.data y.data = false) :=
    ⟨fun x y hxy hyx => by
      by_contra hne
      rcases strLt_total x.data y.data (data_ne hne) with h | h
      · rw [h] at hxy
        cases hxy
      · rw [h] at hyx
        cases hyx⟩
  exact @List.eq_of_perm_of_sorted String (fun x y => strLt x.data y.data = false)
    inferInstance _ _ (hp.map _) (List.pairwise_map.mpr h1) (List.pairwise_map.mpr h2)

/-! ## Reading a line -/

theorem parseLine_eq (line : List Char) :
    parseLine line =
      if (readFields line).date = "Failure" then none
      else if (readFields line).eventName = "Failure" then none
      else if (readFields line).sectionName = "Failure" then none
      else if floatOfInt (getLength line (readFields line).pos) = -1 then none
      else some
        { date := (readFields line).date
          eventName := (readFields line).eventName
          speaker := (readFields line).speaker
          script := (readFields line).script
          length := getLength line (readFields line).pos } := by
  unfold parseLine readFields
  simp only
  split_ifs <;> rfl

theorem readLines_eq_readRows (st : ReadState) (lines : List String) :
    readLines st lines = readRows st (acceptedRows lines) := by
  induction lines generalizing st with
  | nil => rfl
  | cons line rest ih =>
    unfold acceptedRows
    rw [List.filterMap_cons]
    simp only [readLines, readLine]
    cases hp : parseLine line.data with
    | none => exact ih st
    | some r =>
      simp only [readRows]
      cases groupStep st r with
      | none => rfl
      | some st1 => exact ih st1

theorem groupStep_none (st : ReadState) (r : Row) (hall : st.allSpeeches = [])
    (hd : r.date = st.prevDate) : groupStep st r = none := by
  unfold groupStep
  simp [hd, hall]

theorem totalSpeeches_append (l1 l2 : List event) (n p : Int) (d : String) :
    totalSpeeches { lineNumber := n, prevDate := d, allSpeeches := l1 ++ l2 } =
      totalSpeeches { lineNumber := p, prevDate := d, allSpeeches := l1 } +
        (l2.map (fun e => e.speeches.length)).sum := by
  simp [totalSpeeches]

theorem groupStep_adds (st st1 : ReadState) (r : Row) (h : groupStep st r = some st1) :
    totalSpeeches st1 = totalSpeeches st + 1 ∧
    ∃ cur, st1.allSpeeches.getLast? = some cur ∧
      cur.speeches.head? = some (groupSpeech st r) := by
  by_cases hd : r.date = st.prevDate
  · by_cases hne : st.allSpeeches = []
    · rw [groupStep_none st r hne hd] at h
      cases h
    · obtain ⟨evs, cur, hall⟩ : ∃ evs cur, st.allSpeeches = evs ++ [cur] :=
        ⟨st.allSpeeches.dropLast, st.allSpeeches.getLast hne,
          (List.dropLast_append_getLast hne).symm⟩
      rw [groupStep_same st r evs cur hall hd] at h
      have h1 := (Option.some.inj h).symm
      subst h1
      constructor
      · simp only [totalSpeeches, hall, List.map_append, List.sum_append, List.map_cons,
          List.map_nil, List.sum_cons, List.sum_nil, addSpeech_speeches, List.length_cons]
        omega
      · refine ⟨_, List.getLast?_concat _, ?_⟩
        simp [addSpeech_speeches, groupSpeech, groupLineNumber, hd]
  · rw [groupStep_new st r hd] at h
    have h1 := (Option.some.inj h).symm
    subst h1
    constructor
    · simp only [totalSpeeches, List.map_append, List.sum_append, List.map_cons,
        List.map_nil, List.sum_cons, List.sum_nil, addSpeech_speeches, List.length_cons]
      simp [event.new]
    · refine ⟨_, List.getLast?_concat _, ?_⟩
      simp [addSpeech_speeches, groupSpeech, groupLineNumber, hd]

theorem floatOfInt_zero : floatOfInt 0 = 0 := by
  simp [floatOfInt]

/-- A line on which the read of the date, of the event name or of the section
fails is skipped by `readFile`: the state is left as it was. -/
theorem readLine_skip_of_failure (st : ReadState) (line : String)
    (h : (readFields line.data).date = "Failure" ∨
      (readFields line.data).eventName = "Failure" ∨
      (readFields line.data).sectionName = "Failure") :
    readLine st line = some st := by
  unfold readLine
  rw [parseLine_eq]
  rcases h with h | h | h
  · simp [h]
  · by_cases h1 : (readFields line.data).date = "Failure" <;> simp [h1, h]
  · by_cases h1 : (readFields line.data).date = "Failure" <;>
      by_cases h2 : (readFields line.data).eventName = "Failure" <;> simp [h1, h2, h]

/-! ## The events built by `readFile` -/

theorem built_addSpeech (e : event) (sp : speech) (h : e.Built) : (e.addSpeech sp).Built := by
  obtain ⟨n, d, sps, _, he⟩ := h
  refine ⟨n, d, sps ++ [sp], by simp, ?_⟩
  rw [addAll_append, ← he]
  rfl

theorem built_new_addSpeech (nameString dateString : String) (sp : speech) :
    ((event.new nameString dateString).addSpeech sp).Built :=
  ⟨nameString, dateString, [sp], by simp, rfl⟩

theorem groupStep_cases (st st1 : ReadState) (r : Row) (h : groupStep st r = some st1) :
    (r.date = st.prevDate ∧ ∃ evs cur, st.allSpeeches = evs ++ [cur] ∧
      st1 = { lineNumber := st.lineNumber + 1
              prevDate := st.prevDate
              allSpeeches := evs ++ [cur.addSpeech (groupSpeech st r)] }) ∨
    (r.date ≠ st.prevDate ∧
      st1 = { lineNumber := 1
              prevDate := r.date
              allSpeeches := st.allSpeeches ++
                [(event.new r.eventName r.date).addSpeech (groupSpeech st r)] }) := by
  by_cases hd : r.date = st.prevDate
  · left
    refine ⟨hd, ?_⟩
    by_cases hne : st.allSpeeches = []
    · rw [groupStep_none st r hne hd] at h
      cases h
    · obtain ⟨evs, cur, hall⟩ : ∃ evs cur, st.allSpeeches = evs ++ [cur] :=
        ⟨st.allSpeeches.dropLast, st.allSpeeches.getLast hne,
          (List.dropLast_append_getLast hne).symm⟩
      rw [groupStep_same st r evs cur hall hd] at h
      refine ⟨evs, cur, hall, ?_⟩
      rw [← Option.some.inj h]
      simp [groupSpeech, groupLineNumber, hd]
  · right
    refine ⟨hd, ?_⟩
    rw [groupStep_new st r hd] at h
    rw [← Option.some.inj h]
    simp [groupSpeech, groupLineNumber, hd]

theorem groupStep_built (st st1 : ReadState) (r : Row) (h : groupStep st r = some st1)
    (hb : ∀ e ∈ st.allSpeeches, e.Built) : ∀ e ∈ st1.allSpeeches, e.Built := by
  rcases groupStep_cases st st1 r h with ⟨_, evs, cur, hall, rfl⟩ | ⟨_, rfl⟩
  · intro e he
    simp only [List.mem_append, List.mem_singleton] at he
    rcases he with he | he
    · exact hb e (by rw [hall]; exact List.mem_append_left _ he)
    · rw [he]
      exact built_addSpeech _ _ (hb cur (by rw [hall]; simp))
  · intro e he
    simp only [List.mem_append, List.mem_singleton] at he
    rcases he with he | he
    · exact hb e he
    · rw [he]
      exact built_new_addSpeech _ _ _

theorem readRows_built (rows : List Row) (st st1 : ReadState)
    (h : readRows st rows = some st1) (hb : ∀ e ∈ st.allSpeeches, e.Built) :
    ∀ e ∈ st1.allSpeeches, e.Built := by
  induction rows generalizing st with
  | nil =>
    simp only [readRows, Option.some.injEq] at h
    rw [← h]
    exact hb
  | cons r rest ih =>
    simp only [readRows] at h
    cases hstep : groupStep st r with
    | none => simp [hstep] at h
    | some st2 =>
      simp only [hstep] at h
      exact ih st2 h (groupStep_built st st2 r hstep hb)

theorem readFile_built (lines : List String) (allSpeeches : List event)
    (h : readFile lines = some allSpeeches) : ∀ e ∈ allSpeeches, e.Built := by
  unfold readFile at h
  rw [readLines_eq_readRows] at h
  cases hr : readRows ReadState.init (acceptedRows lines) with
  | none => simp [hr] at h
  | some st =>
    simp only [hr, Option.map_some', Option.some.injEq] at h
    rw [← h]
    exact readRows_built _ _ st hr (by simp [ReadState.init])

theorem built_ok (e : event) (h : e.Built) : SpeakerMap.Ok e.getSpeakers := by
  obtain ⟨n, d, sps, _, rfl⟩ := h
  exact addAll_ok _ sps (new_ok n d)

theorem built_speechCount (e : event) (h : e.Built) : 1 ≤ e.getSpeechCount := by
  obtain ⟨n, d, sps, hne, rfl⟩ := h
  unfold event.getSpeechCount
  rw [addAll_speechCount]
  have : 0 < sps.length := List.length_pos.mpr hne
  simp only [event.new]
  omega

theorem built_timesSpoke (e : event) (h : e.Built) :
    ∀ p ∈ e.getSpeakers, 1 ≤ p.2.timesSpoke := by
  obtain ⟨n, d, sps, _, rfl⟩ := h
  intro p hp
  obtain ⟨hne, hv⟩ := fresh_entry n d sps p hp
  rw [hv]
  have hlen : 0 < (speechesOf p.1 sps).length := List.length_pos.mpr hne
  show (1 : Int) ≤ 0 + ((speechesOf p.1 sps).length : Int)
  omega

theorem sum_ge_one (l : List Int) (hne : l ≠ []) (h : ∀ x ∈ l, 1 ≤ x) : 1 ≤ l.sum := by
  cases l with
  | nil => exact absurd rfl hne
  | cons x rest =>
    have hx := h x (List.mem_cons_self _ _)
    have hrest : 0 ≤ rest.sum := by
      apply List.sum_nonneg
      intro y hy
      have := h y (List.mem_cons_of_mem _ hy)
      omega
    simp only [List.sum_cons]
    omega

theorem rollup_timesSpoke (events : List event) (hb : ∀ e ∈ events, e.Built) :
    ∀ p ∈ speakerMenu_allSpeakers events, 1 ≤ p.2.timesSpoke := by
  intro p hp
  have hf := (find_eq_some_iff _ (allSpeakers_ok events) p.1 p.2).mpr hp
  rw [allSpeakers_find_of_ok events (fun e he => built_ok e (hb e he))] at hf
  split_ifs at hf with hnil
  rw [← Option.some.inj hf]
  show 1 ≤ ((perEventStats p.1 events).map speakerStats.timesSpoke).sum
  apply sum_ge_one
  · simpa using hnil
  · intro x hx
    obtain ⟨v, hv, rfl⟩ := List.mem_map.mp hx
    unfold perEventStats at hv
    obtain ⟨e, he, hfe⟩ := List.mem_filterMap.mp hv
    have hmem := (find_eq_some_iff _ (built_ok e (hb e he)) p.1 v).mp hfe
    exact built_timesSpoke e (hb e he) (p.1, v) hmem

theorem readRows_init_isSome (rows : List Row) (h : rows.head?.map Row.date ≠ some "") :
    ∃ st, readRows ReadState.init rows = some st := by
  cases rows with
  | nil => exact ⟨ReadState.init, rfl⟩
  | cons r rest =>
    have hd : r.date ≠ ReadState.init.prevDate := by
      intro e
      apply h
      simp [e, ReadState.init]
    obtain ⟨st1, hstep, _, hne, _⟩ := groupStep_ok ReadState.init r (Or.inr hd)
    obtain ⟨st2, hrun, _, _⟩ := readRows_state rest st1 hne
    exact ⟨st2, by simp only [readRows, hstep, hrun]⟩

/-- The run of `readFile` is defined as soon as the first accepted row, if there
is one, has a non-empty date. -/
theorem readFile_isSome (lines : List String)
    (h : (acceptedRows lines).head?.map Row.date ≠ some "") :
    ∃ allSpeeches, readFile lines = some allSpeeches := by
  obtain ⟨st, hst⟩ := readRows_init_isSome _ h
  refine ⟨st.allSpeeches, ?_⟩
  unfold readFile
  rw [readLines_eq_readRows, hst]
  rfl

/-! ## The positions given by `readFile` -/

theorem positionsOk_addSpeech (cur : event) (sp : speech) (h : cur.PositionsOk)
    (hp : sp.getPosition = (cur.speeches.length : Int) + 1) :
    (cur.addSpeech sp).PositionsOk := by
  unfold event.PositionsOk at h ⊢
  rw [addSpeech_speeches, List.reverse_cons, List.map_append, h, List.length_cons,
    List.range'_concat]
  simp only [List.map_cons, List.map_nil, hp, List.map_append, mul_one, Int.ofNat_eq_coe]
  congr 2
  push_cast
  ring

theorem positionsOk_new_addSpeech (nameString dateString : String) (sp : speech)
    (hp : sp.getPosition = 1) :
    ((event.new nameString dateString).addSpeech sp).PositionsOk := by
  unfold event.PositionsOk
  rw [addSpeech_speeches]
  simp [event.new, hp]

theorem groupStep_positions (st st1 : ReadState) (r : Row) (h : groupStep st r = some st1)
    (hpos : ∀ e ∈ st.allSpeeches, e.PositionsOk)
    (hline : ∀ cur, st.allSpeeches.getLast? = some cur →
      st.lineNumber = (cur.speeches.length : Int)) :
    (∀ e ∈ st1.allSpeeches, e.PositionsOk) ∧
    (∀ cur, st1.allSpeeches.getLast? = some cur →
      st1.lineNumber = (cur.speeches.length : Int)) := by
  rcases groupStep_cases st st1 r h with ⟨hd, evs, cur, hall, rfl⟩ | ⟨hd, rfl⟩
  · have hcur : st.lineNumber = (cur.speeches.length : Int) :=
      hline cur (by rw [hall]; exact List.getLast?_concat _)
    have hsp : (groupSpeech st r).getPosition = (cur.speeches.length : Int) + 1 := by
      simp [groupSpeech, groupLineNumber, hd, speech.new, speech.getPosition, hcur]
    constructor
    · intro e he
      simp only [List.mem_append, List.mem_singleton] at he
      rcases he with he | he
      · exact hpos e (by rw [hall]; exact List.mem_append_left _ he)
      · rw [he]
        exact positionsOk_addSpeech cur _ (hpos cur (by rw [hall]; simp)) hsp
    · intro c hc
      simp only [List.getLast?_concat, Option.some.injEq] at hc
      rw [← hc, addSpeech_speeches, List.length_cons, hcur]
      push_cast
      rfl
  · have hsp : (groupSpeech st r).getPosition = 1 := by
      simp [groupSpeech, groupLineNumber, hd, speech.new, speech.getPosition]
    constructor
    · intro e he
      simp only [List.mem_append, List.mem_singleton] at he
      rcases he with he | he
      · exact hpos e he
      · rw [he]
        exact positionsOk_new_addSpeech _ _ _ hsp
    · intro c hc
      simp only [List.getLast?_concat, Option.some.injEq] at hc
      rw [← hc, addSpeech_speeches]
      simp [event.new]

theorem readRows_positions_from (rows : List Row) (st st1 : ReadState)
    (h : readRows st rows = some st1)
    (hpos : ∀ e ∈ st.allSpeeches, e.PositionsOk)
    (hline : ∀ cur, st.allSpeeches.getLast? = some cur →
      st.lineNumber = (cur.speeches.length : Int)) :
    ∀ e ∈ st1.allSpeeches, e.PositionsOk := by
  induction rows generalizing st with
  | nil =>
    simp only [readRows, Option.some.injEq] at h
    rw [← h]
    exact hpos
  | cons r rest ih =>
    simp only [readRows] at h
    cases hstep : groupStep st r with
    | none => simp [hstep] at h
    | some st2 =>
      simp only [hstep] at h
      obtain ⟨h1, h2⟩ := groupStep_positions st st2 r hstep hpos hline
      exact ih st2 h h1 h2

/-- Whenever the grouping steps of `readFile` are all defined, the speeches of
every event have the positions 1, 2, ..., n in the order of the rows. -/
theorem readRows_positions (rows : List Row) (st : ReadState)
    (h : readRows ReadState.init rows = some st) :
    ∀ e ∈ st.allSpeeches, e.PositionsOk :=
  readRows_positions_from rows ReadState.init st h (by simp [ReadState.init])
    (by simp [ReadState.init])

/-! ## When `countWord` returns 0 -/

theorem countWordLoop_ge (s : List Char) (fuel : Nat) (count : Int) (p : Option Nat) (n : Int)
    (h : countWordLoop s fuel count p = some n) :
    count ≤ n ∧ (p ≠ none → count + 1 ≤ n) := by
  induction fuel generalizing count p with
  | zero => simp [countWordLoop] at h
  | succ fuel ih =>
    cases p with
    | none =>
      simp only [countWordLoop, Option.some.injEq] at h
      subst h
      simp
    | some pos =>
      simp only [countWordLoop] at h
      have := (ih _ _ h).1
      constructor
      · omega
      · intro _
        exact this

theorem findAux_eq_none_iff (p : Char → Bool) (cs : List Char) (i : Nat) :
    findAux p cs i = none ↔ ∀ c ∈ cs, p c = false := by
  induction cs generalizing i with
  | nil => simp [findAux]
  | cons c rest ih =>
    simp only [findAux, List.mem_cons, forall_eq_or_imp]
    by_cases hc : p c = true
    · simp [hc]
    · simp only [hc, Bool.false_eq_true, if_false, ih]
      simp [Bool.eq_false_iff.mpr hc]

/-- The code of `countWord` returns 0 exactly on the scripts that contain no
comma, no period and no space. -/
theorem countWord_eq_zero_iff (t : String) :
    countWord t = 0 ↔ ∀ c ∈ t.data, isDelim c = false := by
  have hspec := countWord_spec t
  unfold countWordFuel at hspec
  rw [← findAux_eq_none_iff isDelim t.data 0]
  have hfind : find_first_of t.data 0 = findAux isDelim t.data 0 := by
    simp [find_first_of]
  rw [← hfind]
  constructor
  · intro h0
    by_contra hne
    have := (countWordLoop_ge _ _ _ _ _ hspec).2 hne
    omega
  · intro hnone
    rw [hnone] at hspec
    simp only [countWordLoop, Option.some.injEq] at hspec
    exact hspec.symm

/-! ## Monotonicity of `addSpeech` and bounds on the roll-up -/

theorem countWord_nonneg (t : String) : 0 ≤ countWord t :=
  (countWordLoop_ge _ _ _ _ _ (countWord_spec t)).1

theorem fromFresh_ok (e : event) (h : e.FromFresh) : SpeakerMap.Ok e.getSpeakers := by
  obtain ⟨n, d, sps, rfl⟩ := h
  exact addAll_ok _ sps (new_ok n d)

theorem fromFresh_timesSpoke (e : event) (h : e.FromFresh) :
    ∀ p ∈ e.getSpeakers, 1 ≤ p.2.timesSpoke := by
  obtain ⟨n, d, sps, rfl⟩ := h
  intro p hp
  obtain ⟨hne, hv⟩ := fresh_entry n d sps p hp
  rw [hv]
  have hlen : 0 < (speechesOf p.1 sps).length := List.length_pos.mpr hne
  show (1 : Int) ≤ 0 + ((speechesOf p.1 sps).length : Int)
  omega

theorem length_le_sum (l : List Int) (h : ∀ x ∈ l, 1 ≤ x) : (l.length : Int) ≤ l.sum := by
  induction l with
  | nil => simp
  | cons x rest ih =>
    have hx := h x (List.mem_cons_self _ _)
    have hrest := ih (fun y hy => h y (List.mem_cons_of_mem _ hy))
    simp only [List.length_cons, List.sum_cons]
    push_cast
    omega

theorem rollup_entry (events : List event) (hok : ∀ e ∈ events, SpeakerMap.Ok e.getSpeakers)
    (p : String × speakerStats) (hp : p ∈ speakerMenu_allSpeakers events) :
    perEventStats p.1 events ≠ [] ∧ p.2 = rollTotals (perEventStats p.1 events) := by
  have hf := (find_eq_some_iff _ (allSpeakers_ok events) p.1 p.2).mpr hp
  rw [allSpeakers_find_of_ok events hok] at hf
  split_ifs at hf with hnil
  exact ⟨hnil, (Option.some.inj hf).symm⟩

theorem readRows_init_none (r : Row) (rest : List Row) (h : r.date = "") :
    readRows ReadState.init (r :: rest) = none := by
  have : groupStep ReadState.init r = none := groupStep_none _ _ rfl (by rw [h]; rfl)
  simp [readRows, this]

/-- The run of `readFile` reaches a call of `addSpeech` through the uninitialised
`eventObj` exactly when the first accepted row has an empty date. -/
theorem readFile_eq_none_iff (lines : List String) :
    readFile lines = none ↔ (acceptedRows lines).head?.map Row.date = some "" := by
  constructor
  · intro h
    by_contra hne
    obtain ⟨all, hall⟩ := readFile_isSome lines hne
    rw [hall] at h
    cases h
  · intro h
    unfold readFile
    rw [readLines_eq_readRows]
    cases hrows : acceptedRows lines with
    | nil => simp [hrows] at h
    | cons r rest =>
      rw [hrows] at h
      simp only [List.head?_cons, Option.map_some', Option.some.injEq] at h
      rw [readRows_init_none r rest h]
      rfl

/-! ## The comparators are strict weak orderings -/

theorem strictWeak_of_strLt {α : Type} (k : α → List Char) :
    StrictWeak (fun a b => strLt (k a) (k b)) := by
  refine ⟨fun a => strLt_irrefl _, fun a b c => strLt_trans _ _ _, ?_⟩
  rintro a b c ⟨h1, h2⟩ ⟨h3, h4⟩
  exact ⟨strLt_neg_trans _ _ _ h1 h3, strLt_neg_trans _ _ _ h4 h2⟩

theorem strictWeak_flip {α : Type} (comp : α → α → Bool) (h : StrictWeak comp) :
    StrictWeak (fun a b => comp b a) := by
  obtain ⟨h1, h2, h3⟩ := h
  refine ⟨h1, fun a b c hab hbc => h2 c b a hbc hab, ?_⟩
  rintro a b c ⟨hab, hba⟩ ⟨hbc, hcb⟩
  have := h3 a b c ⟨hba, hab⟩ ⟨hcb, hbc⟩
  exact ⟨this.2, this.1⟩

theorem strictWeak_of_gt {α : Type} (k : α → Int) :
    StrictWeak (fun a b => decide (k a > k b)) := by
  refine ⟨?_, ?_, ?_⟩
  · intro a
    simp
  · intro a b c hab hbc
    simp only [gt_iff_lt, decide_eq_true_eq] at hab hbc ⊢
    omega
  · rintro a b c ⟨hab, hba⟩ ⟨hbc, hcb⟩
    simp only [gt_iff_lt, decide_eq_false_iff_not, not_lt] at hab hba hbc hcb ⊢
    constructor <;> omega

theorem intDiv_of_ne_zero (a b : Int) (hb : b ≠ 0) : intDiv a b = some (Int.tdiv a b) := by
  unfold intDiv
  rw [if_neg hb]

theorem strictWeakOn_of_gt {α : Type} (P : α → Prop) (k : α → Int)
    (comp : α → α → Option Bool)
    (hcomp : ∀ a b, P a → P b → comp a b = some (decide (k a > k b))) :
    StrictWeakOn P comp := by
  obtain ⟨h1, h2, h3⟩ := strictWeak_of_gt k
  refine ⟨?_, ?_, ?_, ?_⟩
  · intro a b ha hb
    rw [hcomp a b ha hb]
    simp
  · intro a ha
    rw [hcomp a a ha ha]
    simp
  · intro a b c ha hb hc hab hbc
    rw [hcomp a b ha hb] at hab
    rw [hcomp b c hb hc] at hbc
    rw [hcomp a c ha hc]
    exact congrArg some (h2 a b c (Option.some.inj hab) (Option.some.inj hbc))
  · rintro a b c ha hb hc ⟨hab, hba⟩ ⟨hbc, hcb⟩
    rw [hcomp a b ha hb] at hab
    rw [hcomp b a hb ha] at hba
    rw [hcomp b c hb hc] at hbc
    rw [hcomp c b hc hb] at hcb
    rw [hcomp a c ha hc, hcomp c a hc ha]
    have := h3 a b c ⟨Option.some.inj hab, Option.some.inj hba⟩
      ⟨Option.some.inj hbc, Option.some.inj hcb⟩
    exact ⟨congrArg some this.1, congrArg some this.2⟩

/-! ## The number of iterations of the loop of `countWord` -/

theorem countWordLoop_fuel_mono (s : List Char) (fuel : Nat) (count : Int) (p : Option Nat)
    (n : Int) (h : countWordLoop s fuel count p = some n) (k : Nat) :
    countWordLoop s (fuel + k) count p = some n := by
  induction fuel generalizing count p with
  | zero => simp [countWordLoop] at h
  | succ fuel ih =>
    have hk : fuel + 1 + k = (fuel + k) + 1 := by omega
    rw [hk]
    cases p with
    | none =>
      simp only [countWordLoop] at h ⊢
      exact h
    | some pos =>
      simp only [countWordLoop] at h ⊢
      exact ih _ _ h

theorem findAux_found (p : Char → Bool) (cs : List Char) (i q : Nat)
    (h : findAux p cs i = some q) :
    ∃ c rest, cs.drop (q - i) = c :: rest ∧ p c = true := by
  induction cs generalizing i with
  | nil => simp [findAux] at h
  | cons c rest ih =>
    simp only [findAux] at h
    split_ifs at h with hc
    · simp only [Option.some.injEq] at h
      subst h
      exact ⟨c, rest, by simp, hc⟩
    · have hb := findAux_bounds p rest (i + 1) q h
      obtain ⟨c1, rest1, hdrop, hc1⟩ := ih (i + 1) h
      refine ⟨c1, rest1, ?_, hc1⟩
      have : q - i = (q - (i + 1)) + 1 := by omega
      rw [this, List.drop_succ_cons]
      exact hdrop

theorem find_first_of_found (s : List Char) (pos q : Nat)
    (h : find_first_of s pos = some q) :
    ∃ c, s.drop q = c :: s.drop (q + 1) ∧ isDelim c = true := by
  have hb := find_first_of_bounds s pos q h
  obtain ⟨c, rest, hdrop, hc⟩ := findAux_found isDelim (s.drop pos) pos q h
  rw [List.drop_drop] at hdrop
  have hq : pos + (q - pos) = q := by omega
  rw [hq] at hdrop
  refine ⟨c, ?_, hc⟩
  have hrest : s.drop (q + 1) = rest := by
    have := congrArg (List.drop 1) hdrop
    rw [List.drop_drop] at this
    simpa using this
  rw [hrest]
  exact hdrop

theorem delimsFrom_mono (s : List Char) (i j : Nat) (h : i ≤ j) :
    delimsFrom s j ≤ delimsFrom s i :=
  List.Sublist.countP_le _ (List.drop_sublist_drop_left s h)

theorem delimsFrom_found (s : List Char) (pos q : Nat) (h : find_first_of s pos = some q) :
    delimsFrom s q = delimsFrom s (q + 1) + 1 := by
  obtain ⟨c, hdrop, hc⟩ := find_first_of_found s pos q h
  unfold delimsFrom
  rw [hdrop, List.countP_cons, if_pos hc]

theorem delimsFrom_le_length (s : List Char) : delimsFrom s 0 ≤ s.length := by
  unfold delimsFrom
  simpa using List.countP_le_length isDelim (l := s)

theorem countWordLoop_bound (s : List Char) (fuel : Nat) (count : Int) (pos : Nat)
    (hfuel : 2 + delimsFrom s (pos + 1) ≤ fuel) :
    ∃ n, countWordLoop s fuel count (some pos) = some n ∧
      n ≤ count + 1 + (delimsFrom s (pos + 1) : Int) := by
  induction fuel generalizing count pos with
  | zero => omega
  | succ fuel ih =>
    simp only [countWordLoop]
    cases hf : find_first_of s (pos + 1) with
    | none =>
      obtain ⟨f1, rfl⟩ : ∃ f1, fuel = f1 + 1 := ⟨fuel - 1, by omega⟩
      refine ⟨count + 1, rfl, ?_⟩
      omega
    | some q =>
      have hq := find_first_of_bounds s (pos + 1) q hf
      have hs := skipNonAlnum_bounds s q (by omega)
      have hd1 := delimsFrom_found s (pos + 1) q hf
      have hd2 := delimsFrom_mono s (pos + 1) q hq.1
      have hd3 := delimsFrom_mono s (q + 1) (skipNonAlnum s q + 1) (by omega)
      simp only [Option.map_some']
      obtain ⟨n, hn, hle⟩ := ih (count + 1) (skipNonAlnum s q) (by omega)
      exact ⟨n, hn, by omega⟩

theorem countWordFuel_bound (s : List Char) :
    ∃ n, countWordFuel (delimsFrom s 0 + 1) s = some n ∧ n ≤ (delimsFrom s 0 : Int) := by
  unfold countWordFuel
  cases hf : find_first_of s 0 with
  | none => exact ⟨0, rfl, by omega⟩
  | some q =>
    have hd1 := delimsFrom_found s 0 q hf
    have hd2 := delimsFrom_mono s 0 q (Nat.zero_le _)
    obtain ⟨n, hn, hle⟩ := countWordLoop_bound s (delimsFrom s 0 + 1) 0 q (by omega)
    exact ⟨n, hn, by omega⟩

theorem countWordFuel_mono (s : List Char) (fuel : Nat) (n : Int)
    (h : countWordFuel fuel s = some n) (k : Nat) : countWordFuel (fuel + k) s = some n :=
  countWordLoop_fuel_mono s fuel 0 _ n h k

theorem countWord_le_delims (t : String) :
    countWordFuel (t.data.length + 1) t.data = some (countWord t) ∧
    countWord t ≤ (delimsFrom t.data 0 : Int) := by
  obtain ⟨n, hn, hle⟩ := countWordFuel_bound t.data
  have hlen := delimsFrom_le_length t.data
  have h1 : countWordFuel (t.data.length + 1) t.data = some n := by
    have := countWordFuel_mono t.data _ n hn (t.data.length - delimsFrom t.data 0)
    have he : delimsFrom t.data 0 + 1 + (t.data.length - delimsFrom t.data 0)
        = t.data.length + 1 := by omega
    rwa [he] at this
  have h2 : countWordFuel (t.data.length + 2) t.data = some n :=
    countWordFuel_mono t.data _ n h1 1
  have h3 := countWord_spec t
  rw [h2] at h3
  have h4 : n = countWord t := Option.some.inj h3
  rw [← h4]
  exact ⟨h1, hle⟩

/-! ## Decimal digits and `stoi` -/

theorem digitChar_spec : ∀ k, k < 10 →
    (Nat.digitChar k).isDigit = true ∧ (Nat.digitChar k).toNat - 48 = k := by
  decide

theorem digitsValue_append_singleton (l : List Char) (c : Char) :
    digitsValue (l ++ [c]) = 10 * digitsValue l + (c.toNat - 48) := by
  simp [digitsValue, List.foldl_append]

theorem toDigitsCore_spec (fuel n : Nat) (ds : List Char) (h : n < fuel) :
    ∃ pre, Nat.toDigitsCore 10 fuel n ds = pre ++ ds ∧ pre ≠ [] ∧
      (∀ c ∈ pre, c.isDigit = true) ∧ digitsValue pre = n := by
  induction fuel generalizing n ds with
  | zero => omega
  | succ fuel ih =>
    rw [Nat.toDigitsCore.eq_2]
    have hd := digitChar_spec (n % 10) (Nat.mod_lt _ (by omega))
    split_ifs with h0
    · refine ⟨[Nat.digitChar (n % 10)], rfl, by simp, ?_, ?_⟩
      · intro c hc
        rw [List.mem_singleton.mp hc]
        exact hd.1
      · have hlt : n < 10 := by
          by_contra hge
          have : 1 ≤ n / 10 := Nat.div_pos (by omega) (by omega)
          omega
        have := digitsValue_append_singleton [] (Nat.digitChar (n % 10))
        simp only [List.nil_append] at this
        rw [this, hd.2, Nat.mod_eq_of_lt hlt]
        simp [digitsValue]
    · have hdiv : n / 10 < fuel := by
        have : n / 10 < n := Nat.div_lt_self (by omega) (by omega)
        omega
      obtain ⟨pre, hpre, _, hdig, hval⟩ := ih (n / 10) (Nat.digitChar (n % 10) :: ds) hdiv
      refine ⟨pre ++ [Nat.digitChar (n % 10)], ?_, by simp, ?_, ?_⟩
      · rw [hpre]
        simp
      · intro c hc
        rcases List.mem_append.mp hc with hc1 | hc1
        · exact hdig c hc1
        · rw [List.mem_singleton.mp hc1]
          exact hd.1
      · rw [digitsValue_append_singleton, hval, hd.2]
        exact Nat.div_add_mod n 10

/-- The decimal notation `Nat.toDigits 10 n` of `n` is a non-empty string of
digits whose value is `n`. -/
theorem toDigits_spec (n : Nat) :
    Nat.toDigits 10 n ≠ [] ∧ (∀ c ∈ Nat.toDigits 10 n, c.isDigit = true) ∧
    digitsValue (Nat.toDigits 10 n) = n := by
  obtain ⟨pre, hpre, hne, hdig, hval⟩ := toDigitsCore_spec (n + 1) n [] (by omega)
  have : Nat.toDigits 10 n = pre := by
    unfold Nat.toDigits
    rw [hpre]
    simp
  rw [this]
  exact ⟨hne, hdig, hval⟩

theorem digit_not_space (c : Char) (h : c.isDigit = true) :
    isSpaceChar c = false ∧ c ≠ '-' ∧ c ≠ '+' := by
  refine ⟨?_, ?_, ?_⟩
  · cases hs : isSpaceChar c with
    | false => rfl
    | true =>
      exfalso
      simp only [isSpaceChar, Bool.or_eq_true, decide_eq_true_eq] at hs
      rcases hs with ((((rfl | rfl) | rfl) | rfl) | rfl) | rfl <;>
        exact absurd h (by decide)
  · rintro rfl
    exact absurd h (by decide)
  · rintro rfl
    exact absurd h (by decide)

theorem stoi_digits (ds : List Char) (hne : ds ≠ []) (hdig : ∀ c ∈ ds, c.isDigit = true)
    (hval : digitsValue ds < 2 ^ 31) : stoi ds = some ((digitsValue ds : Nat) : Int) := by
  obtain ⟨c, rest, rfl⟩ : ∃ c rest, ds = c :: rest := by
    cases ds with
    | nil => exact absurd rfl hne
    | cons c rest => exact ⟨c, rest, rfl⟩
  have hc := digit_not_space c (hdig c (List.mem_cons_self _ _))
  have hdrop : (c :: rest).dropWhile isSpaceChar = c :: rest := by
    simp [List.dropWhile, hc.1]
  have htake : (c :: rest).takeWhile Char.isDigit = c :: rest :=
    List.takeWhile_eq_self_iff.mpr hdig
  unfold stoi
  simp only [hdrop, List.head?_cons, Option.some.injEq, hc.2.1, hc.2.2, or_self, if_false,
    decide_False, htake, reduceCtorEq, Bool.false_eq_true]
  have h1 : -(2 : Int) ^ 31 ≤ ((digitsValue (c :: rest) : Nat) : Int) := by
    have : (0 : Int) ≤ ((digitsValue (c :: rest) : Nat) : Int) := Int.natCast_nonneg _
    omega
  have h2 : ((digitsValue (c :: rest) : Nat) : Int) < (2 : Int) ^ 31 := by
    exact_mod_cast hval
  rw [if_pos ⟨h1, h2⟩]

theorem floatOfInt_nonneg (n : Int) (h : 0 ≤ n) : 0 ≤ floatOfInt n := by
  unfold floatOfInt
  simp only
  split_ifs <;> first
    | exact_mod_cast h
    | omega
    | positivity

/-! ## Reading the fields of a well-formed line -/

theorem charAt_append (pre : List Char) (c : Char) (rest : List Char) :
    charAt (pre ++ c :: rest) pre.length = c := by
  induction pre with
  | nil => rfl
  | cons x xs ih => simpa [charAt] using ih

theorem findAux_append (p : Char → Bool) (t : List Char) (d : Char) (rest : List Char)
    (i : Nat) (ht : ∀ c ∈ t, p c = false) (hd : p d = true) :
    findAux p (t ++ d :: rest) i = some (i + t.length) := by
  induction t generalizing i with
  | nil => simp [findAux, hd]
  | cons c t1 ih =>
    have hc := ht c (List.mem_cons_self _ _)
    have e : findAux p (c :: (t1 ++ d :: rest)) i = findAux p (t1 ++ d :: rest) (i + 1) := by
      simp [findAux, hc]
    rw [List.cons_append, e, ih (i + 1) (fun x hx => ht x (List.mem_cons_of_mem _ hx)),
      List.length_cons]
    congr 1
    omega

theorem findChar_append (c : Char) (pre t rest : List Char) (ht : c ∉ t) :
    findChar c (pre ++ (t ++ c :: rest)) pre.length = some (pre.length + t.length) := by
  unfold findChar
  rw [List.drop_left]
  apply findAux_append
  · intro x hx
    simp only [decide_eq_false_iff_not]
    rintro rfl
    exact ht hx
  · simp

theorem nextCSV_plain (pre t rest : List Char) (hcomma : ',' ∉ t) (hquote : '"' ∉ t) :
    nextCSV (pre ++ (t ++ ',' :: rest)) pre.length = (String.mk t, pre.length + t.length) := by
  have hhead : charAt (pre ++ (t ++ ',' :: rest)) pre.length ≠ '"' := by
    cases t with
    | nil =>
      rw [List.nil_append, charAt_append]
      decide
    | cons c t1 =>
      rw [List.cons_append, charAt_append]
      rintro rfl
      exact hquote (List.mem_cons_self _ _)
  have hend : charAt (pre ++ (t ++ ',' :: rest)) (pre.length + t.length) = ',' := by
    have := charAt_append (pre ++ t) ',' rest
    simpa [List.append_assoc] using this
  unfold nextCSV
  simp only [hhead, decide_False, Bool.false_eq_true, if_false,
    findChar_append ',' pre t rest hcomma, hend]
  rw [List.drop_left]
  simp

theorem nextCSV_quoted (pre t rest : List Char) (hquote : '"' ∉ t) :
    nextCSV (pre ++ (('"' :: (t ++ ['"'])) ++ ',' :: rest)) pre.length
      = (String.mk t, pre.length + (t.length + 2)) := by
  have hline : pre ++ (('"' :: (t ++ ['"'])) ++ ',' :: rest)
      = (pre ++ ['"']) ++ (t ++ '"' :: (',' :: rest)) := by
    simp [List.append_assoc]
  have hhead : charAt (pre ++ (('"' :: (t ++ ['"'])) ++ ',' :: rest)) pre.length = '"' := by
    rw [List.cons_append, charAt_append]
  have hfind : findChar '"' (pre ++ (('"' :: (t ++ ['"'])) ++ ',' :: rest)) (pre.length + 1)
      = some (pre.length + 1 + t.length) := by
    rw [hline]
    have := findChar_append '"' (pre ++ ['"']) t (',' :: rest) hquote
    simpa using this
  have hend : charAt (pre ++ (('"' :: (t ++ ['"'])) ++ ',' :: rest)) (pre.length + 1 + t.length)
      = '"' := by
    rw [hline]
    have e : pre.length + 1 + t.length = ((pre ++ ['"']) ++ t).length := by
      simp only [List.length_append, List.length_singleton]
    rw [e]
    have := charAt_append ((pre ++ ['"']) ++ t) '"' (',' :: rest)
    rw [List.append_assoc (pre ++ ['"']) t] at this
    exact this
  have hdrop : List.drop (pre.length + 1) (pre ++ (('"' :: (t ++ ['"'])) ++ ',' :: rest))
      = t ++ '"' :: (',' :: rest) := by
    rw [hline]
    have := List.drop_left (pre ++ ['"']) (t ++ '"' :: (',' :: rest))
    rw [List.length_append] at this
    exact this
  unfold nextCSV
  simp only [hhead, decide_True, if_true, hfind, hend, hdrop]
  have hlen : pre.length + 1 + t.length - (pre.length + 1) = t.length := by omega
  rw [hlen, List.take_left]
  congr 1
  omega

theorem nextCSV_field (pre rest : List Char) (f : CsvField) (hf : f.WellFormed) :
    nextCSV (pre ++ (f.written ++ ',' :: rest)) pre.length
      = (String.mk f.text, pre.length + f.written.length) := by
  cases f with
  | plain t => exact nextCSV_plain pre t rest hf.1 hf.2
  | quoted t =>
    have := nextCSV_quoted pre t rest hf
    simpa [CsvField.written, CsvField.text] using this

theorem nextCSV_field_at (line pre rest : List Char) (f : CsvField) (hf : f.WellFormed)
    (pos : Nat) (hline : line = pre ++ (f.written ++ ',' :: rest)) (hpos : pos = pre.length) :
    nextCSV line pos = (String.mk f.text, pre.length + f.written.length) := by
  rw [hline, hpos]
  exact nextCSV_field pre rest f hf

theorem readFields_csvLine (f1 f2 f3 f4 f5 : CsvField) (ds : List Char)
    (h1 : f1.WellFormed) (h2 : f2.WellFormed) (h3 : f3.WellFormed) (h4 : f4.WellFormed)
    (h5 : f5.WellFormed) :
    (readFields (csvLine f1 f2 f3 f4 f5 ds)).date = String.mk f1.text ∧
    (readFields (csvLine f1 f2 f3 f4 f5 ds)).eventName = String.mk f2.text ∧
    (readFields (csvLine f1 f2 f3 f4 f5 ds)).sectionName = String.mk f3.text ∧
    (readFields (csvLine f1 f2 f3 f4 f5 ds)).speaker = String.mk f4.text ∧
    (readFields (csvLine f1 f2 f3 f4 f5 ds)).script = String.mk f5.text ∧
    (csvLine f1 f2 f3 f4 f5 ds).drop ((readFields (csvLine f1 f2 f3 f4 f5 ds)).pos + 1) = ds := by
  have e1 := nextCSV_field_at (csvLine f1 f2 f3 f4 f5 ds) []
    (f2.written ++ ',' :: (f3.written ++ ',' :: (f4.written ++ ',' :: (f5.written ++
      ',' :: ds)))) f1 h1 0 rfl rfl
  have e2 := nextCSV_field_at (csvLine f1 f2 f3 f4 f5 ds) (f1.written ++ [','])
    (f3.written ++ ',' :: (f4.written ++ ',' :: (f5.written ++ ',' :: ds))) f2 h2
    (f1.written.length + 1) (by simp [csvLine]) (by simp)
  have e3 := nextCSV_field_at (csvLine f1 f2 f3 f4 f5 ds)
    (f1.written ++ [','] ++ (f2.written ++ [',']))
    (f4.written ++ ',' :: (f5.written ++ ',' :: ds)) f3 h3
    ((f1.written ++ [',']).length + f2.written.length + 1) (by simp [csvLine])
    (by simp only [List.length_append, List.length_singleton]; omega)
  have e4 := nextCSV_field_at (csvLine f1 f2 f3 f4 f5 ds)
    (f1.written ++ [','] ++ (f2.written ++ [',']) ++ (f3.written ++ [',']))
    (f5.written ++ ',' :: ds) f4 h4
    ((f1.written ++ [','] ++ (f2.written ++ [','])).length + f3.written.length + 1)
    (by simp [csvLine])
    (by simp only [List.length_append, List.length_singleton]; omega)
  have e5 := nextCSV_field_at (csvLine f1 f2 f3 f4 f5 ds)
    (f1.written ++ [','] ++ (f2.written ++ [',']) ++ (f3.written ++ [',']) ++
      (f4.written ++ [','])) ds f5 h5
    ((f1.written ++ [','] ++ (f2.written ++ [',']) ++ (f3.written ++ [','])).length
      + f4.written.length + 1)
    (by simp [csvLine])
    (by simp only [List.length_append, List.length_singleton]; omega)
  simp only [List.length_nil, Nat.zero_add] at e1
  have hfields : readFields (csvLine f1 f2 f3 f4 f5 ds) =
      { date := String.mk f1.text, eventName := String.mk f2.text,
        sectionName := String.mk f3.text, speaker := String.mk f4.text,
        script := String.mk f5.text,
        pos := (f1.written ++ [','] ++ (f2.written ++ [',']) ++ (f3.written ++ [',']) ++
          (f4.written ++ [','])).length + f5.written.length } := by
    unfold readFields
    simp only [e1, e2, e3, e4, e5]
  rw [hfields]
  refine ⟨rfl, rfl, rfl, rfl, rfl, ?_⟩
  have hline : csvLine f1 f2 f3 f4 f5 ds =
      (f1.written ++ [','] ++ (f2.written ++ [',']) ++ (f3.written ++ [',']) ++
        (f4.written ++ [',']) ++ (f5.written ++ [','])) ++ ds := by
    simp [csvLine]
  have hpos : (f1.written ++ [','] ++ (f2.written ++ [',']) ++ (f3.written ++ [',']) ++
      (f4.written ++ [','])).length + f5.written.length + 1 =
      (f1.written ++ [','] ++ (f2.written ++ [',']) ++ (f3.written ++ [',']) ++
        (f4.written ++ [',']) ++ (f5.written ++ [','])).length := by
    simp only [List.length_append, List.length_singleton]
    omega
  simp only
  rw [hpos, hline, List.drop_left]

/-! ## The claims -/

/-- C1: for every finite sequence of speeches added with `addSpeech` to a freshly
constructed event, `getSpeechCount()` equals the number of calls and the length
of the stored `speeches` list, and `getWordCount()` equals the sum of the word
counts of the added speeches; for the fresh event both are 0. -/
theorem C1_speech_count_and_word_count (nameString dateString : String)
    (sps : List speech) :
    ((event.new nameString dateString).addAll sps).getSpeechCount = (sps.length : Int) ∧
    ((event.new nameString dateString).addAll sps).speeches.length = sps.length ∧
    ((event.new nameString dateString).addAll sps).getWordCount
      = (sps.map speech.getCount).sum ∧
    (event.new nameString dateString).getSpeechCount = 0 ∧
    (event.new nameString dateString).getWordCount = 0 := by
  refine ⟨?_, ?_, ?_, rfl, rfl⟩
  · unfold event.getSpeechCount
    rw [addAll_speechCount]
    simp [event.new]
  · rw [addAll_speeches_length]
    simp [event.new]
  · unfold event.getWordCount
    rw [addAll_totalWordCount]
    simp [event.new]

/-- C3: for every sequence of `addSpeech` calls on a fresh event,
`getSpeakerCount()` equals the size of the speakers map and the number of
distinct speaker names among the added speeches; and two further speeches of one
speaker who has not spoken yet raise `speakerCount` by exactly 1 and leave that
speaker with `timesSpoke` 2. -/
theorem C3_speaker_count (nameString dateString : String) (sps : List speech) :
    ((event.new nameString dateString).addAll sps).getSpeakerCount
      = (((event.new nameString dateString).addAll sps).getSpeakers.size : Int) ∧
    ((event.new nameString dateString).addAll sps).getSpeakerCount
      = ((sps.map speech.getSpeaker).dedup.length : Int) ∧
    (∀ sp1 sp2 : speech, sp1.getSpeaker = sp2.getSpeaker →
      sp1.getSpeaker ∉ sps.map speech.getSpeaker →
      ((event.new nameString dateString).addAll (sps ++ [sp1, sp2])).getSpeakerCount
        = ((event.new nameString dateString).addAll sps).getSpeakerCount + 1 ∧
      ∃ v, SpeakerMap.find
          ((event.new nameString dateString).addAll (sps ++ [sp1, sp2])).getSpeakers
          sp1.getSpeaker = some v ∧ v.timesSpoke = 2) := by
  have hsize : ∀ l : List speech,
      ((event.new nameString dateString).addAll l).speakerCount
        = (((event.new nameString dateString).addAll l).speakers.length : Int) := fun l =>
    addAll_speakerCount _ l (new_ok nameString dateString) rfl
  have hdistinct : ∀ l : List speech,
      ((event.new nameString dateString).addAll l).speakerCount
        = ((l.map speech.getSpeaker).dedup.length : Int) := fun l => by
    rw [hsize l, fresh_size]
  refine ⟨hsize sps, hdistinct sps, ?_⟩
  intro sp1 sp2 hsame hnew
  constructor
  · unfold event.getSpeakerCount
    rw [hdistinct, hdistinct]
    have h2 : sp2.getSpeaker ∉ sps.map speech.getSpeaker := hsame ▸ hnew
    have hd : ((sps ++ [sp1, sp2]).map speech.getSpeaker).dedup.length
        = (sps.map speech.getSpeaker).dedup.length + 1 := by
      have hp : List.Perm ((sps ++ [sp1, sp2]).map speech.getSpeaker).dedup
          (sp1.getSpeaker :: (sps.map speech.getSpeaker).dedup) := by
        rw [List.perm_ext_iff_of_nodup (List.nodup_dedup _)
          (List.nodup_cons.mpr ⟨by rwa [List.mem_dedup], List.nodup_dedup _⟩)]
        intro a
        simp only [List.mem_dedup, List.map_append, List.mem_append, List.map_cons,
          List.map_nil, List.mem_cons, List.not_mem_nil, or_false, ← hsame]
        tauto
      simpa using hp.length_eq
    rw [hd]
    push_cast
    rfl
  · refine ⟨speechTotals {} (speechesOf sp1.getSpeaker (sps ++ [sp1, sp2])), ?_, ?_⟩
    · unfold event.getSpeakers
      rw [fresh_find, if_neg]
      rw [speechesOf_eq_nil_iff]
      simp
    · have hnil : speechesOf sp1.getSpeaker sps = [] :=
        (speechesOf_eq_nil_iff _ _).mpr hnew
      have : speechesOf sp1.getSpeaker (sps ++ [sp1, sp2]) = [sp1, sp2] := by
        unfold speechesOf at hnil ⊢
        rw [List.filter_append, hnil]
        simp [hsame]
      rw [this]
      simp [speechTotals]

/-- C3 at a concrete input: speaker "Bob" has not spoken in an event with one
speech of "Alice", and then speaks twice. -/
theorem C3_speaker_count_witness :
    ((event.new "Debate" "2019-06-26").addAll
        ([speech.new 1 "Alice" "good evening" 4]
          ++ [speech.new 2 "Bob" "thank you" 3, speech.new 3 "Bob" "yes" 1])).getSpeakerCount
      = ((event.new "Debate" "2019-06-26").addAll
          [speech.new 1 "Alice" "good evening" 4]).getSpeakerCount + 1 ∧
    ∃ v, SpeakerMap.find
        ((event.new "Debate" "2019-06-26").addAll
          ([speech.new 1 "Alice" "good evening" 4]
            ++ [speech.new 2 "Bob" "thank you" 3, speech.new 3 "Bob" "yes" 1])).getSpeakers
        (speech.new 2 "Bob" "thank you" 3).getSpeaker = some v ∧ v.timesSpoke = 2 :=
  (C3_speaker_count "Debate" "2019-06-26" [speech.new 1 "Alice" "good evening" 4]).2.2
    (speech.new 2 "Bob" "thank you" 3) (speech.new 3 "Bob" "yes" 1) rfl (by decide)

/-- C4: for every event reached from a fresh event by `addSpeech` calls and every
name `s`, `s` is a key of the speakers map if and only if at least one added
speech has speaker `s`, and every entry of the map has `timesSpoke >= 1`. -/
theorem C4_speaker_keys (nameString dateString : String) (sps : List speech) (s : String) :
    (s ∈ ((event.new nameString dateString).addAll sps).getSpeakers.map Prod.fst ↔
      ∃ sp ∈ sps, sp.getSpeaker = s) ∧
    (SpeakerMap.count ((event.new nameString dateString).addAll sps).getSpeakers s = 1 ↔
      ∃ sp ∈ sps, sp.getSpeaker = s) ∧
    ∀ p ∈ ((event.new nameString dateString).addAll sps).getSpeakers, 1 ≤ p.2.timesSpoke := by
  have hkey : s ∈ ((event.new nameString dateString).addAll sps).getSpeakers.map Prod.fst ↔
      ∃ sp ∈ sps, sp.getSpeaker = s := by
    unfold event.getSpeakers
    rw [fresh_mem_keys, List.mem_map]
  refine ⟨hkey, ?_, ?_⟩
  · rw [← hkey, mem_keys_iff]
    unfold SpeakerMap.count
    cases SpeakerMap.find ((event.new nameString dateString).addAll sps).getSpeakers s <;> simp
  · intro p hp
    obtain ⟨hne, hv⟩ := fresh_entry nameString dateString sps p hp
    rw [hv]
    have hlen : 0 < (speechesOf p.1 sps).length := List.length_pos.mpr hne
    simp only [speechTotals]
    show (1 : Int) ≤ 0 + ((speechesOf p.1 sps).length : Int)
    omega

/-- C4 at a concrete input: after one speech of "Alice" and two of "Bob", the
entry of "Bob" is in the map and has `timesSpoke >= 1`. -/
theorem C4_speaker_keys_witness :
    (("Bob", { timesSpoke := 2, totalWordCount := 1, totalSpeakingTime := 4 }) :
        String × speakerStats)
      ∈ ((event.new "Debate" "2019-06-26").addAll
          [speech.new 1 "Alice" "good evening" 4, speech.new 2 "Bob" "thank you" 3,
            speech.new 3 "Bob" "yes" 1]).getSpeakers ∧
    (1 : Int) ≤ (2 : Int) :=
  ⟨by decide,
    (C4_speaker_keys "Debate" "2019-06-26"
      [speech.new 1 "Alice" "good evening" 4, speech.new 2 "Bob" "thank you" 3,
        speech.new 3 "Bob" "yes" 1] "Bob").2.2
      ("Bob", { timesSpoke := 2, totalWordCount := 1, totalSpeakingTime := 4 }) (by decide)⟩

/-- C6: for every collection of events and every speaker name `s`, the roll-up
computed by `speakerMenu` has an entry for `s` exactly when `s` is a key of the
speakers map of at least one event, and the `appearances` of that entry is the
number of events whose speakers map has the key `s`. -/
theorem C6_rollup_keys_and_appearances (events : List event)
    (hok : ∀ e ∈ events, SpeakerMap.Ok e.getSpeakers) (s : String) :
    (s ∈ (speakerMenu_allSpeakers events).map Prod.fst ↔
      ∃ e ∈ events, s ∈ e.getSpeakers.map Prod.fst) ∧
    (∀ v, SpeakerMap.find (speakerMenu_allSpeakers events) s = some v →
      v.appearances =
        ((events.filter (fun e => decide (s ∈ e.getSpeakers.map Prod.fst))).length : Int)) := by
  have hfind := allSpeakers_find_of_ok events hok s
  constructor
  · rw [mem_keys_iff, hfind]
    by_cases h : perEventStats s events = []
    · simp only [h, if_true, ne_eq, not_true_eq_false, false_iff, not_exists, not_and]
      exact (perEventStats_eq_nil_iff s events).mp h
    · simp only [h, if_false, ne_eq, reduceCtorEq, not_false_eq_true, true_iff]
      by_contra hc
      apply h
      rw [perEventStats_eq_nil_iff]
      intro e he hmem
      exact hc ⟨e, he, hmem⟩
  · intro v hv
    rw [hfind] at hv
    split_ifs at hv with h
    rw [← Option.some.inj hv, ← perEventStats_length]
    rfl

/-- C6 at the two sample events: "Bob" speaks in both, in one of them twice, and
his roll-up entry has `appearances` 2. -/
theorem C6_rollup_keys_and_appearances_witness :
    (∀ e ∈ [sampleEventA, sampleEventB], SpeakerMap.Ok e.getSpeakers) ∧
    (∀ v, SpeakerMap.find (speakerMenu_allSpeakers [sampleEventA, sampleEventB]) "Bob" = some v →
      v.appearances =
        (([sampleEventA, sampleEventB].filter
          (fun e => decide ("Bob" ∈ e.getSpeakers.map Prod.fst))).length : Int)) ∧
    (([sampleEventA, sampleEventB].filter
      (fun e => decide ("Bob" ∈ e.getSpeakers.map Prod.fst))).length = 2) :=
  ⟨sample_ok,
    (C6_rollup_keys_and_appearances [sampleEventA, sampleEventB] sample_ok "Bob").2,
    by decide⟩

/-- C8: for every two lists of events that are permutations of each other, the
roll-up of the one equals the roll-up of the other: the same map, hence the same
speaker keys and for each speaker the same four fields. -/
theorem C8_rollup_perm (events1 events2 : List event) (h : events1.Perm events2) :
    speakerMenu_allSpeakers events1 = speakerMenu_allSpeakers events2 ∧
    ∀ s, SpeakerMap.find (speakerMenu_allSpeakers events1) s
      = SpeakerMap.find (speakerMenu_allSpeakers events2) s := by
  have hfind : ∀ s, SpeakerMap.find (speakerMenu_allSpeakers events1) s
      = SpeakerMap.find (speakerMenu_allSpeakers events2) s := by
    intro s
    rw [allSpeakers_find, allSpeakers_find]
    have hp := List.Perm.flatMap_right (fun e : event => entriesOf s e.getSpeakers) h
    rw [rollTotals_perm _ _ hp]
    by_cases hnil : events1.flatMap (fun e => entriesOf s e.getSpeakers) = []
    · have : events2.flatMap (fun e => entriesOf s e.getSpeakers) = [] := by
        rw [hnil] at hp
        exact List.nil_perm.mp hp
      rw [if_pos hnil, if_pos this]
    · have : events2.flatMap (fun e => entriesOf s e.getSpeakers) ≠ [] := by
        intro h2
        rw [h2] at hp
        exact hnil (List.perm_nil.mp hp)
      rw [if_neg hnil, if_neg this]
  exact ⟨map_ext_of_ok _ _ (allSpeakers_ok events1) (allSpeakers_ok events2) hfind, hfind⟩

/-- C8 at the two sample events, visited in both orders. -/
theorem C8_rollup_perm_witness :
    [sampleEventA, sampleEventB].Perm [sampleEventB, sampleEventA] ∧
    speakerMenu_allSpeakers [sampleEventA, sampleEventB]
      = speakerMenu_allSpeakers [sampleEventB, sampleEventA] :=
  ⟨List.Perm.swap _ _ _,
    (C8_rollup_perm [sampleEventA, sampleEventB] [sampleEventB, sampleEventA]
      (List.Perm.swap _ _ _)).1⟩

/-- C9: for every sequence of accepted rows with non-empty dates, the grouping
step of `readFile` succeeds on every row and leaves one event per maximal
contiguous run of equal dates, in file order, each with the date of its run and
as many speeches as the run has rows; a further row adds an event exactly when
its date differs from the date of the row before it (the first row always adds
one); and rows with the dates A, A, B, A give 3 events with 2, 1 and 1 speeches. -/
theorem C9_run_grouping (rows : List Row) (hdates : ∀ r ∈ rows, r.date ≠ "") :
    (∃ st, readRows ReadState.init rows = some st ∧
      st.allSpeeches.map eventInfo = (dateRuns (rows.map Row.date)).map runInfo) ∧
    (∀ r : Row, r.date ≠ "" →
      ∃ st0 st1, readRows ReadState.init rows = some st0 ∧
        readRows ReadState.init (rows ++ [r]) = some st1 ∧
        (r.date ≠ lastDate rows → st1.allSpeeches.length = st0.allSpeeches.length + 1) ∧
        (r.date = lastDate rows → st1.allSpeeches.length = st0.allSpeeches.length)) ∧
    (∀ (A B : String) (r1 r2 r3 r4 : Row), A ≠ "" → B ≠ "" → A ≠ B →
      r1.date = A → r2.date = A → r3.date = B → r4.date = A →
      ∃ st, readRows ReadState.init [r1, r2, r3, r4] = some st ∧
        st.allSpeeches.map eventInfo = [(A, 2, 2), (B, 1, 1), (A, 1, 1)]) := by
  refine ⟨readRows_init_runs rows hdates, ?_, ?_⟩
  · intro r hr
    obtain ⟨st0, hrun, hprev, hne⟩ := readRows_init_state rows hdates
    have hcond : st0.allSpeeches ≠ [] ∨ r.date ≠ st0.prevDate := by
      by_cases hrows : rows = []
      · right
        rw [hprev, hrows]
        exact hr
      · exact Or.inl (hne hrows)
    obtain ⟨st1, hstep, _, _, hlen⟩ := groupStep_ok st0 r hcond
    refine ⟨st0, st1, hrun, ?_, ?_, ?_⟩
    · rw [readRows_append, hrun]
      simp only [Option.some_bind, readRows, hstep]
    · intro hne1
      rw [hlen, hprev, if_neg hne1]
    · intro he1
      rw [hlen, hprev, if_pos he1]
      rfl
  · intro A B r1 r2 r3 r4 hA hB hAB h1 h2 h3 h4
    have hd : ∀ r ∈ [r1, r2, r3, r4], r.date ≠ "" := by
      intro r hr
      simp only [List.mem_cons, List.mem_singleton, List.not_mem_nil, or_false] at hr
      rcases hr with rfl | rfl | rfl | rfl
      · rwa [h1]
      · rwa [h2]
      · rwa [h3]
      · rwa [h4]
    obtain ⟨st, hrun, hinfo⟩ := readRows_init_runs [r1, r2, r3, r4] hd
    refine ⟨st, hrun, ?_⟩
    rw [hinfo]
    have e1 : (A == B) = false := by simp [hAB]
    have e2 : (B == A) = false := by simp [Ne.symm hAB]
    simp [dateRuns, List.splitBy, List.splitBy.loop, h1, h2, h3, h4, e1, e2, runInfo]

/-- C9 at the four sample rows, with the dates 2019-06-26, 2019-06-26,
2019-06-27, 2019-06-26: three events with 2, 1 and 1 speeches. -/
theorem C9_run_grouping_witness :
    (∀ r ∈ sampleRows, r.date ≠ "") ∧
    (∃ st, readRows ReadState.init sampleRows = some st ∧
      st.allSpeeches.map eventInfo = (dateRuns (sampleRows.map Row.date)).map runInfo) ∧
    (dateRuns (sampleRows.map Row.date)).map runInfo
      = [("2019-06-26", 2, 2), ("2019-06-27", 1, 1), ("2019-06-26", 1, 1)] :=
  ⟨by decide, (C9_run_grouping sampleRows (by decide)).1, by decide⟩

/-- C10: on the transcript `"Hello, world."` the code of `countWord` returns 3
(it counts the comma, the space after it and the final period), not 2. -/
theorem C10_countWord_hello_world :
    countWord "Hello, world." = 3 ∧ countWord "Hello, world." ≠ 2 := by
  decide

/-- C11: the code of `countWord` returns 0 on the empty script, but 1 on the
script `"."` and 2 on `"..."`, which contain no alphanumeric character (and 0 on
`"!!!"`, which contains no delimiter): every delimiter found is counted, also
when no word stands before it. -/
theorem C11_countWord_punctuation_only :
    countWord "" = 0 ∧ countWord "." = 1 ∧ countWord "..." = 2 ∧ countWord " " = 1 ∧
    countWord "!!!" = 0 := by
  decide

/-- C12: the code of `countWord` returns 2, not 1, on two words separated by a
run of two or more delimiters (`"a, b"`, `"a,,,,b"`), and 1 on two words
separated by one delimiter: the skip of the run comes after the second
delimiter of the run has been found, and that delimiter is counted. -/
theorem C12_countWord_delimiter_run :
    countWord "a, b" = 2 ∧ countWord "a,,,,b" = 2 ∧ countWord "a. , b" = 2 ∧
    countWord "a b" = 1 := by
  decide

/-- C13: on words separated by single spaces the code of `countWord` returns the
number of spaces, one less than the number of words: 0 for `"hello"`, 1 for
`"a b"`, 2 for `"a b c"`. -/
theorem C13_countWord_words :
    countWord "hello" = 0 ∧ countWord "a b" = 1 ∧ countWord "a b c" = 2 ∧
    countWord "one two three four" = 3 := by
  decide

/-- C14: sorting a list of events with the comparator `sortEventDate` yields a
permutation of the input in which no event has a date below the date of a later
one (non-increasing dates); every permutation of the input ordered by the
comparator has the same sequence of dates; and events with the dates
2019-06-01, 2020-02-01, 2019-12-01 come out as 2020-02-01, 2019-12-01,
2019-06-01. -/
theorem C14_sort_by_date (allSpeeches : List event) :
    (stdSort sortEventDate allSpeeches).Perm allSpeeches ∧
    (stdSort sortEventDate allSpeeches).Pairwise
      (fun a b => strLt a.getDate.data b.getDate.data = false) ∧
    (∀ out : List event, out.Perm allSpeeches →
      out.Pairwise (fun a b => sortEventDate b a = false) →
      out.map event.getDate = (stdSort sortEventDate allSpeeches).map event.getDate) ∧
    (∀ e1 e2 e3 : event, e1.getDate = "2019-06-01" → e2.getDate = "2020-02-01" →
      e3.getDate = "2019-12-01" →
      (stdSort sortEventDate [e1, e2, e3]).map event.getDate
        = ["2020-02-01", "2019-12-01", "2019-06-01"]) := by
  have hsorted : ∀ l : List event,
      (stdSort sortEventDate l).Pairwise (fun a b => sortEventDate b a = false) := fun l =>
    stdSort_sorted sortEventDate sortEventDate_asymm sortEventDate_neg_trans l
  refine ⟨stdSort_perm _ _, hsorted allSpeeches, ?_, ?_⟩
  · intro out hperm hout
    exact dates_eq_of_sorted out _ (hperm.trans (stdSort_perm _ _).symm) hout
      (hsorted allSpeeches)
  · intro e1 e2 e3 h1 h2 h3
    have c21 : sortEventDate e2 e1 = true := by
      unfold sortEventDate
      rw [h1, h2]
      decide
    have c23 : sortEventDate e2 e3 = true := by
      unfold sortEventDate
      rw [h2, h3]
      decide
    have c31 : sortEventDate e3 e1 = true := by
      unfold sortEventDate
      rw [h1, h3]
      decide
    have c32 : sortEventDate e3 e2 = false := sortEventDate_asymm _ _ c23
    simp [stdSort, insertBy, c21, c23, c31, c32, h1, h2, h3]

/-- C14 at three concrete events with the dates 2019-06-01, 2020-02-01 and
2019-12-01. -/
theorem C14_sort_by_date_witness :
    (event.new "First" "2019-06-01").getDate = "2019-06-01" ∧
    (stdSort sortEventDate
        [event.new "First" "2019-06-01", event.new "Second" "2020-02-01",
          event.new "Third" "2019-12-01"]).map event.getDate
      = ["2020-02-01", "2019-12-01", "2019-06-01"] :=
  ⟨rfl,
    (C14_sort_by_date []).2.2.2 (event.new "First" "2019-06-01")
      (event.new "Second" "2020-02-01") (event.new "Third" "2019-12-01") rfl rfl rfl⟩

/-- C15: for every `speakerStats` with `timesSpoke >= 1` and non-negative
totals, the average word count that is printed is defined and is the integer
quotient of `totalWordCount` by `timesSpoke` (the floor of the exact quotient,
which for these signs is the quotient rounded toward zero), and likewise for the
average speaking time; for `totalWordCount = 300` and `timesSpoke = 3` the
average word count is 100. -/
theorem C15_speaker_averages (stats : speakerStats) (htimes : 1 ≤ stats.timesSpoke)
    (hwords : 0 ≤ stats.totalWordCount) (htime : 0 ≤ stats.totalSpeakingTime) :
    (∃ q, stats.avgWordCount = some q ∧
      q = ⌊(stats.totalWordCount : ℚ) / (stats.timesSpoke : ℚ)⌋ ∧ 0 ≤ q ∧
      q * stats.timesSpoke ≤ stats.totalWordCount ∧
      stats.totalWordCount < (q + 1) * stats.timesSpoke) ∧
    (∃ q, stats.avgSpeakingTime = some q ∧
      q = ⌊(stats.totalSpeakingTime : ℚ) / (stats.timesSpoke : ℚ)⌋ ∧ 0 ≤ q ∧
      q * stats.timesSpoke ≤ stats.totalSpeakingTime ∧
      stats.totalSpeakingTime < (q + 1) * stats.timesSpoke) ∧
    ({ timesSpoke := 3, totalWordCount := 300 } : speakerStats).avgWordCount = some 100 :=
  ⟨intDiv_of_pos _ _ hwords htimes, intDiv_of_pos _ _ htime htimes, by decide⟩

/-- C15 at `totalWordCount = 300`, `totalSpeakingTime = 100`, `timesSpoke = 3`. -/
theorem C15_speaker_averages_witness :
    (1 : Int) ≤ 3 ∧ (0 : Int) ≤ 300 ∧ (0 : Int) ≤ 100 ∧
    ∃ q, ({ timesSpoke := 3, totalWordCount := 300, totalSpeakingTime := 100 } :
        speakerStats).avgSpeakingTime = some q ∧
      q = ⌊((100 : Int) : ℚ) / ((3 : Int) : ℚ)⌋ ∧ 0 ≤ q ∧ q * 3 ≤ 100 ∧ 100 < (q + 1) * 3 :=
  ⟨by decide, by decide, by decide,
    (C15_speaker_averages { timesSpoke := 3, totalWordCount := 300, totalSpeakingTime := 100 }
      (by decide) (by decide) (by decide)).2.1⟩

/-- C18, the claim as stated fails: for a freshly constructed event the average
word count and the average speaking time of `eventDetails` divide by the
`speechCount` 0, and for a `speakerStats` with `timesSpoke` 0 the averages and
the two comparators by average divide by 0; none yields a result. -/
theorem C18_counterexample :
    (event.new "Debate" "2019-06-26").avgWordCount = none ∧
    (event.new "Debate" "2019-06-26").avgSpeakingTime = none ∧
    ({} : speakerStats).avgWordCount = none ∧
    ({} : speakerStats).avgSpeakingTime = none ∧
    sortSpeakersAvgWC ("A", {}) ("B", { timesSpoke := 1 }) = none ∧
    sortSpeakersAvgTime ("A", {}) ("B", { timesSpoke := 1 }) = none := by
  decide

/-- C18 as amended: the average computations do not guard against division by
zero; each divides by `speechCount` or `timesSpoke` directly, so its result is
defined exactly when that divisor is not 0 (for the two comparators by average:
when neither `timesSpoke` is 0). -/
theorem C18_averages_defined_iff (e : event) (stats : speakerStats)
    (speaker1 speaker2 : String × speakerStats) :
    (e.avgWordCount = none ↔ e.getSpeechCount = 0) ∧
    (e.avgSpeakingTime = none ↔ e.getSpeechCount = 0) ∧
    (stats.avgWordCount = none ↔ stats.timesSpoke = 0) ∧
    (stats.avgSpeakingTime = none ↔ stats.timesSpoke = 0) ∧
    (sortSpeakersAvgWC speaker1 speaker2 = none ↔
      speaker1.2.timesSpoke = 0 ∨ speaker2.2.timesSpoke = 0) ∧
    (sortSpeakersAvgTime speaker1 speaker2 = none ↔
      speaker1.2.timesSpoke = 0 ∨ speaker2.2.timesSpoke = 0) := by
  refine ⟨intDiv_eq_none_iff _ _, intDiv_eq_none_iff _ _, intDiv_eq_none_iff _ _,
    intDiv_eq_none_iff _ _, ?_, ?_⟩
  · unfold sortSpeakersAvgWC intDiv
    by_cases h1 : speaker1.2.timesSpoke = 0 <;> by_cases h2 : speaker2.2.timesSpoke = 0 <;>
      simp [h1, h2]
  · unfold sortSpeakersAvgTime intDiv
    by_cases h1 : speaker1.2.timesSpoke = 0 <;> by_cases h2 : speaker2.2.timesSpoke = 0 <;>
      simp [h1, h2]

/-- C16: on the line `2019-06-26,Debate 1,Part 1,Alice` the reads of the speaker
and of the script both fail (no comma follows), and the code of `readFile` does
not skip the row: the two tests that follow these reads compare `eventName`, not
`speaker` or `script`, with the failure marker, so an event is created and a
speech with speaker and script `"Failure"` is added to it. -/
theorem C16_failed_speaker_row_kept :
    (readFields "2019-06-26,Debate 1,Part 1,Alice".data).speaker = "Failure" ∧
    (readFields "2019-06-26,Debate 1,Part 1,Alice".data).script = "Failure" ∧
    parseLine "2019-06-26,Debate 1,Part 1,Alice".data
      = some { date := "2019-06-26", eventName := "Debate 1", speaker := "Failure",
               script := "Failure", length := 0 } ∧
    (readFile ["2019-06-26,Debate 1,Part 1,Alice"]).map
        (fun evs => evs.map
          (fun e => (e.getDate, e.speeches.map (fun sp => (sp.getSpeaker, sp.getScript)))))
      = some [("2019-06-26", [("Failure", "Failure")])] := by
  decide

/-- A line whose fields are read successfully (the tests of `readFile` pass)
and whose length field is not parseable by `stoi`: `getLength` returns 0 and
`readFile` does not skip the row, which reaches the grouping step with length
0; in every state in which an event exists or the date is new, the step adds
exactly one speech, whose speaking time is 0. -/
theorem readLine_unparseable_length (line : String)
    (hdate : (readFields line.data).date ≠ "Failure")
    (hevent : (readFields line.data).eventName ≠ "Failure")
    (hsection : (readFields line.data).sectionName ≠ "Failure")
    (hlength : stoi (line.data.drop ((readFields line.data).pos + 1)) = none) :
    getLength line.data (readFields line.data).pos = 0 ∧
    parseLine line.data = some
      { date := (readFields line.data).date
        eventName := (readFields line.data).eventName
        speaker := (readFields line.data).speaker
        script := (readFields line.data).script
        length := 0 } ∧
    (∀ st : ReadState, ∃ r : Row, r.length = 0 ∧ readLine st line = groupStep st r ∧
      (groupSpeech st r).length = 0) ∧
    (∀ st : ReadState,
      (st.allSpeeches ≠ [] ∨ (readFields line.data).date ≠ st.prevDate) →
      ∃ st1, readLine st line = some st1 ∧ totalSpeeches st1 = totalSpeeches st + 1 ∧
        ∃ cur sp, st1.allSpeeches.getLast? = some cur ∧ cur.speeches.head? = some sp ∧
          sp.length = 0 ∧ sp.getLength = 0 ∧ sp.getSpeaker = (readFields line.data).speaker ∧
          sp.getScript = (readFields line.data).script) := by
  have hlen : getLength line.data (readFields line.data).pos = 0 := by
    unfold getLength
    rw [hlength]
    rfl
  have hparse : parseLine line.data = some
      { date := (readFields line.data).date
        eventName := (readFields line.data).eventName
        speaker := (readFields line.data).speaker
        script := (readFields line.data).script
        length := 0 } := by
    rw [parseLine_eq, if_neg hdate, if_neg hevent, if_neg hsection, hlen, floatOfInt_zero,
      if_neg (by norm_num)]
  refine ⟨hlen, hparse, ?_, ?_⟩
  · intro st
    refine ⟨{ date := (readFields line.data).date
              eventName := (readFields line.data).eventName
              speaker := (readFields line.data).speaker
              script := (readFields line.data).script
              length := 0 }, rfl, ?_, ?_⟩
    · unfold readLine
      rw [hparse]
    · simp [groupSpeech, speech.new, floatOfInt_zero]
  intro st hst
  obtain ⟨st1, hstep, _, _, _⟩ := groupStep_ok st
    { date := (readFields line.data).date
      eventName := (readFields line.data).eventName
      speaker := (readFields line.data).speaker
      script := (readFields line.data).script
      length := 0 } hst
  obtain ⟨htotal, cur, hcur, hhead⟩ := groupStep_adds st st1 _ hstep
  refine ⟨st1, ?_, htotal, cur, _, hcur, hhead, ?_, ?_, rfl, rfl⟩
  · unfold readLine
    rw [hparse]
    exact hstep
  · simp [groupSpeech, speech.new, floatOfInt_zero]
  · exact getLength_of_int _ 0 (by simp [groupSpeech, speech.new, floatOfInt_zero])
      (by decide) (by decide)

/-- C17: on the line `,Debate 1,Part 1,Alice,Hello,`, whose first five fields
are read successfully and whose length field is empty, `getLength` returns 0
and the row is not skipped, but as the first accepted line of a file it adds no
speech: its empty date equals the initial `prevDate`, no event is created, and
`addSpeech` is called through the uninitialised `eventObj`. The same line after
a line that created an event, and the line `2019-06-26,Debate 1,Part 1,Bob,Thank
you.,` as the first line, add exactly one speech of length 0. -/
theorem C17_unparseable_length_without_event :
    ((readFields ",Debate 1,Part 1,Alice,Hello,".data).date,
      (readFields ",Debate 1,Part 1,Alice,Hello,".data).eventName,
      (readFields ",Debate 1,Part 1,Alice,Hello,".data).sectionName,
      (readFields ",Debate 1,Part 1,Alice,Hello,".data).speaker,
      (readFields ",Debate 1,Part 1,Alice,Hello,".data).script,
      (readFields ",Debate 1,Part 1,Alice,Hello,".data).pos)
      = ("", "Debate 1", "Part 1", "Alice", "Hello", 28) ∧
    stoi (",Debate 1,Part 1,Alice,Hello,".data.drop (28 + 1)) = none ∧
    getLength ",Debate 1,Part 1,Alice,Hello,".data 28 = 0 ∧
    parseLine ",Debate 1,Part 1,Alice,Hello,".data
      = some { date := "", eventName := "Debate 1", speaker := "Alice", script := "Hello",
               length := 0 } ∧
    readLine ReadState.init ",Debate 1,Part 1,Alice,Hello," = none ∧
    readFile [",Debate 1,Part 1,Alice,Hello,"] = none ∧
    (readFile ["2019-06-26,Debate 1,Part 1,Bob,Thank you.,4",
        ",Debate 1,Part 1,Alice,Hello,"]).map
        (fun es => es.map (fun e =>
          e.speeches.reverse.map (fun sp => (sp.getSpeaker, sp.getLength))))
      = some [[("Bob", 4)], [("Alice", 0)]] ∧
    (readFile ["2019-06-26,Debate 1,Part 1,Bob,Thank you.,"]).map
        (fun es => es.map (fun e =>
          e.speeches.reverse.map (fun sp => (sp.getSpeaker, sp.getLength))))
      = some [[("Bob", 0)]] := by
  decide

/-- C19: every event of the collection built by `readFile` has
`speechCount >= 1`, every entry of its speakers map and every entry of the
roll-up of the collection has `timesSpoke >= 1`, and so none of the average
computations on them divides by zero. -/
theorem C19_no_division_by_zero (lines : List String) (allSpeeches : List event)
    (h : readFile lines = some allSpeeches) :
    (∀ e ∈ allSpeeches, 1 ≤ e.getSpeechCount ∧ e.avgWordCount ≠ none ∧
      e.avgSpeakingTime ≠ none ∧
      ∀ p ∈ e.getSpeakers, 1 ≤ p.2.timesSpoke ∧ p.2.avgWordCount ≠ none ∧
        p.2.avgSpeakingTime ≠ none) ∧
    (∀ p ∈ speakerMenu_allSpeakers allSpeeches, 1 ≤ p.2.timesSpoke ∧
      p.2.avgWordCount ≠ none ∧ p.2.avgSpeakingTime ≠ none) := by
  have hb := readFile_built lines allSpeeches h
  have hdiv : ∀ a b : Int, 1 ≤ b → intDiv a b ≠ none := by
    intro a b hb1 hnone
    have := (intDiv_eq_none_iff a b).mp hnone
    omega
  constructor
  · intro e he
    have h1 := built_speechCount e (hb e he)
    refine ⟨h1, hdiv _ _ h1, hdiv _ _ h1, ?_⟩
    intro p hp
    have h2 := built_timesSpoke e (hb e he) p hp
    exact ⟨h2, hdiv _ _ h2, hdiv _ _ h2⟩
  · intro p hp
    have h2 := rollup_timesSpoke allSpeeches hb p hp
    exact ⟨h2, hdiv _ _ h2, hdiv _ _ h2⟩

/-- C19 at the two sample lines: `readFile` is defined on them and every event
it builds has `speechCount >= 1`. -/
theorem C19_no_division_by_zero_witness :
    ∃ allSpeeches, readFile sampleLines = some allSpeeches ∧
      ∀ e ∈ allSpeeches, 1 ≤ e.getSpeechCount ∧ e.avgWordCount ≠ none ∧
        e.avgSpeakingTime ≠ none ∧
        ∀ p ∈ e.getSpeakers, 1 ≤ p.2.timesSpoke ∧ p.2.avgWordCount ≠ none ∧
          p.2.avgSpeakingTime ≠ none :=
  (readFile_isSome sampleLines (by decide)).elim
    (fun allSpeeches h => ⟨allSpeeches, h, (C19_no_division_by_zero sampleLines allSpeeches h).1⟩)

/-- C20: on a first accepted row whose date is empty, the code of `readFile`
takes the `else` branch of the grouping step (the date equals the initial
`prevDate`), so the speech of this first row is constructed with position 2 and
passed to `addSpeech` through the uninitialised `eventObj`; on the four sample
rows the positions are 1, 2 in the first event and 1 in the two others. -/
theorem C20_position_of_empty_date_row :
    parseLine ",Debate 1,Part 1,Alice,Hello,5".data
      = some { date := "", eventName := "Debate 1", speaker := "Alice", script := "Hello",
               length := 5 } ∧
    (groupSpeech ReadState.init
      { date := "", eventName := "Debate 1", speaker := "Alice", script := "Hello",
        length := 5 }).getPosition = 2 ∧
    groupStep ReadState.init
      { date := "", eventName := "Debate 1", speaker := "Alice", script := "Hello",
        length := 5 } = none ∧
    readFile [",Debate 1,Part 1,Alice,Hello,5"] = none ∧
    (readRows ReadState.init sampleRows).map
        (fun st => st.allSpeeches.map (fun e => e.speeches.reverse.map speech.getPosition))
      = some [[1, 2], [1], [1]] := by
  decide

/-! ## A line whose length field is the largest `int` -/

/-- C23: when the first accepted line of the file has an empty date, the code of
`readFile` creates no event for it (the date equals the initial `prevDate`) and
calls `addSpeech` through the uninitialised `eventObj`; the same happens when
skipped lines come before it. -/
theorem C23_addSpeech_without_event :
    parseLine ",Debate 1,Part 1,Alice,Hello,5".data
      = some { date := "", eventName := "Debate 1", speaker := "Alice", script := "Hello",
               length := 5 } ∧
    ReadState.init.allSpeeches = [] ∧
    readLine ReadState.init ",Debate 1,Part 1,Alice,Hello,5" = none ∧
    readFile [",Debate 1,Part 1,Alice,Hello,5",
      "2019-06-26,Debate 1,Part 1,Bob,Thank you.,4"] = none ∧
    readFile ["no field here", ",Debate 1,Part 1,Alice,Hello,5"] = none := by
  decide

/-- C25: for every collection of events each built from a fresh event by
`addSpeech` calls, every entry of the roll-up has `appearances` at least 1, at
most the number of events of the collection, and at most its `timesSpoke`. -/
theorem C25_appearances_bounds (events : List event) (h : ∀ e ∈ events, e.FromFresh)
    (p : String × speakerStats) (hp : p ∈ speakerMenu_allSpeakers events) :
    1 ≤ p.2.appearances ∧ p.2.appearances ≤ (events.length : Int) ∧
    p.2.appearances ≤ p.2.timesSpoke := by
  obtain ⟨hne, hv⟩ := rollup_entry events (fun e he => fromFresh_ok e (h e he)) p hp
  rw [hv]
  have hlen : 0 < (perEventStats p.1 events).length := List.length_pos.mpr hne
  have hle : (perEventStats p.1 events).length ≤ events.length :=
    List.length_filterMap_le _ _
  refine ⟨?_, ?_, ?_⟩
  · show (1 : Int) ≤ ((perEventStats p.1 events).length : Int)
    omega
  · show ((perEventStats p.1 events).length : Int) ≤ (events.length : Int)
    omega
  · show ((perEventStats p.1 events).length : Int)
      ≤ ((perEventStats p.1 events).map speakerStats.timesSpoke).sum
    have := length_le_sum ((perEventStats p.1 events).map speakerStats.timesSpoke) (by
      intro x hx
      obtain ⟨v, hv1, rfl⟩ := List.mem_map.mp hx
      unfold perEventStats at hv1
      obtain ⟨e, he, hfe⟩ := List.mem_filterMap.mp hv1
      have hmem := (find_eq_some_iff _ (fromFresh_ok e (h e he)) p.1 v).mp hfe
      exact fromFresh_timesSpoke e (h e he) (p.1, v) hmem)
    rwa [List.length_map] at this

/-- C25 at the two sample events and the roll-up entry of "Bob". -/
theorem C25_appearances_bounds_witness :
    (∀ e ∈ [sampleEventA, sampleEventB], e.FromFresh) ∧
    (("Bob", { timesSpoke := 3, totalWordCount := 2, totalSpeakingTime := 9,
               appearances := 2 }) : String × speakerStats)
      ∈ speakerMenu_allSpeakers [sampleEventA, sampleEventB] ∧
    (1 : Int) ≤ 2 ∧ (2 : Int) ≤ (([sampleEventA, sampleEventB].length : Nat) : Int) ∧
    (2 : Int) ≤ 3 :=
  have hfresh : ∀ e ∈ [sampleEventA, sampleEventB], e.FromFresh := by
    intro e he
    simp only [List.mem_cons, List.mem_singleton, List.not_mem_nil, or_false] at he
    rcases he with rfl | rfl
    · exact ⟨_, _, _, rfl⟩
    · exact ⟨_, _, _, rfl⟩
  ⟨hfresh, by decide,
    C25_appearances_bounds [sampleEventA, sampleEventB] hfresh
      ("Bob", { timesSpoke := 3, totalWordCount := 2, totalSpeakingTime := 9,
                appearances := 2 }) (by decide)⟩

/-- C24: `sortEventName`, `sortEventDate`, `sortEventAttendance`,
`sortSpeakersName`, `sortSpeakersHighWC`, `sortSpeakersHighTime` and
`sortSpeakersAttendance` are strict weak orderings on all inputs, and
`sortSpeakersAvgWC` and `sortSpeakersAvgTime` are defined and are strict weak
orderings on the pairs whose `timesSpoke` is at least 1. -/
theorem C24_comparators_strict_weak :
    StrictWeak sortEventName ∧ StrictWeak sortEventDate ∧ StrictWeak sortEventAttendance ∧
    StrictWeak sortSpeakersName ∧ StrictWeak sortSpeakersHighWC ∧
    StrictWeak sortSpeakersHighTime ∧ StrictWeak sortSpeakersAttendance ∧
    StrictWeakOn (fun p : String × speakerStats => 1 ≤ p.2.timesSpoke) sortSpeakersAvgWC ∧
    StrictWeakOn (fun p : String × speakerStats => 1 ≤ p.2.timesSpoke) sortSpeakersAvgTime := by
  refine ⟨?_, ?_, ?_, ?_, ?_, ?_, ?_, ?_, ?_⟩
  · exact strictWeak_of_strLt (fun e : event => e.getName.data)
  · exact strictWeak_flip _ (strictWeak_of_strLt (fun e : event => e.getDate.data))
  · exact strictWeak_of_gt (fun e : event => e.speakerCount)
  · exact strictWeak_of_strLt (fun p : String × speakerStats => p.1.data)
  · exact strictWeak_of_gt (fun p : String × speakerStats => p.2.totalWordCount)
  · exact strictWeak_of_gt (fun p : String × speakerStats => p.2.totalSpeakingTime)
  · exact strictWeak_of_gt (fun p : String × speakerStats => p.2.appearances)
  · apply strictWeakOn_of_gt _
      (fun p : String × speakerStats => Int.tdiv p.2.totalWordCount p.2.timesSpoke)
    intro a b ha hb
    unfold sortSpeakersAvgWC
    have ha1 : a.2.timesSpoke ≠ 0 := by
      have : 1 ≤ a.2.timesSpoke := ha
      omega
    have hb1 : b.2.timesSpoke ≠ 0 := by
      have : 1 ≤ b.2.timesSpoke := hb
      omega
    rw [intDiv_of_ne_zero _ _ ha1, intDiv_of_ne_zero _ _ hb1]
  · apply strictWeakOn_of_gt _
      (fun p : String × speakerStats => Int.tdiv p.2.totalSpeakingTime p.2.timesSpoke)
    intro a b ha hb
    unfold sortSpeakersAvgTime
    have ha1 : a.2.timesSpoke ≠ 0 := by
      have : 1 ≤ a.2.timesSpoke := ha
      omega
    have hb1 : b.2.timesSpoke ≠ 0 := by
      have : 1 ≤ b.2.timesSpoke := hb
      omega
    rw [intDiv_of_ne_zero _ _ ha1, intDiv_of_ne_zero _ _ hb1]

/-- C26: `countWord` terminates on every input: from one iteration of the outer
loop to the next the scan position strictly increases, the loop condition is
tested at most `length(transcript) + 1` times before the loop ends with the
returned count, and this count is between 0 and the number of comma, period and
space characters of the transcript. -/
theorem C26_countWord_terminates (t : String) :
    countWordFuel (t.data.length + 1) t.data = some (countWord t) ∧
    0 ≤ countWord t ∧
    countWord t ≤ ((t.data.countP isDelim : Nat) : Int) ∧
    (∀ pos q, find_first_of t.data (pos + 1) = some q →
      pos < skipNonAlnum t.data q ∧ skipNonAlnum t.data q ≤ t.data.length) := by
  obtain ⟨h1, h2⟩ := countWord_le_delims t
  refine ⟨h1, countWord_nonneg t, ?_, ?_⟩
  · simpa [delimsFrom] using h2
  · intro pos q hq
    have hb := find_first_of_bounds t.data (pos + 1) q hq
    have hs := skipNonAlnum_bounds t.data q (by omega)
    exact ⟨by omega, hs.2⟩

/-- C26 at the transcript `"Hello, world."`: a delimiter is found at position 6
when the scan goes on from position 5, and the next position of the loop is 7. -/
theorem C26_countWord_terminates_witness :
    find_first_of "Hello, world.".data (5 + 1) = some 6 ∧
    5 < skipNonAlnum "Hello, world.".data 6 ∧
    skipNonAlnum "Hello, world.".data 6 ≤ "Hello, world.".data.length :=
  ⟨by decide, (C26_countWord_terminates "Hello, world.").2.2.2 5 6 (by decide)⟩

/-- C22: for every line written as `f1,f2,f3,f4,f5,n`, where each `fi` is a plain
text without comma and double quote or a text without double quote written
between double quotes, none of the first three texts is `Failure`, and `n` is
written as a non-empty string `ds` of decimal digits with a value below `2^31`,
the five calls of `nextCSV` made by `readFile` return the five texts in order,
without the quotes, `getLength` then returns `n`, and the row is accepted with
these values. -/
theorem C22_field_round_trip (f1 f2 f3 f4 f5 : CsvField) (n : Nat) (ds : List Char)
    (h1 : f1.WellFormed) (h2 : f2.WellFormed) (h3 : f3.WellFormed) (h4 : f4.WellFormed)
    (h5 : f5.WellFormed)
    (hF1 : String.mk f1.text ≠ "Failure") (hF2 : String.mk f2.text ≠ "Failure")
    (hF3 : String.mk f3.text ≠ "Failure")
    (hne : ds ≠ []) (hdig : ∀ c ∈ ds, c.isDigit = true) (hval : digitsValue ds = n)
    (hn : n < 2 ^ 31) :
    (readFields (csvLine f1 f2 f3 f4 f5 ds)).date = String.mk f1.text ∧
    (readFields (csvLine f1 f2 f3 f4 f5 ds)).eventName = String.mk f2.text ∧
    (readFields (csvLine f1 f2 f3 f4 f5 ds)).sectionName = String.mk f3.text ∧
    (readFields (csvLine f1 f2 f3 f4 f5 ds)).speaker = String.mk f4.text ∧
    (readFields (csvLine f1 f2 f3 f4 f5 ds)).script = String.mk f5.text ∧
    getLength (csvLine f1 f2 f3 f4 f5 ds) (readFields (csvLine f1 f2 f3 f4 f5 ds)).pos
      = (n : Int) ∧
    parseLine (csvLine f1 f2 f3 f4 f5 ds) = some
      { date := String.mk f1.text
        eventName := String.mk f2.text
        speaker := String.mk f4.text
        script := String.mk f5.text
        length := (n : Int) } := by
  obtain ⟨e1, e2, e3, e4, e5, hdrop⟩ := readFields_csvLine f1 f2 f3 f4 f5 ds h1 h2 h3 h4 h5
  have hlen : getLength (csvLine f1 f2 f3 f4 f5 ds)
      (readFields (csvLine f1 f2 f3 f4 f5 ds)).pos = (n : Int) := by
    unfold getLength
    rw [hdrop, stoi_digits ds hne hdig (by rw [hval]; exact hn), hval]
    rfl
  refine ⟨e1, e2, e3, e4, e5, hlen, ?_⟩
  have hfloat : floatOfInt (n : Int) ≠ -1 := by
    have := floatOfInt_nonneg (n : Int) (Int.natCast_nonneg n)
    intro h
    rw [h] at this
    norm_num at this
  rw [parseLine_eq, e1, e2, e3, e4, e5, hlen, if_neg hF1, if_neg hF2, if_neg hF3,
    if_neg hfloat]

/-- C22 at the line `2019-06-26,"Debate, night 1",Part 1,Alice,"Hello, world.",18`. -/
theorem C22_field_round_trip_witness :
    (CsvField.quoted "Debate, night 1".data).WellFormed ∧
    digitsValue "18".data = 18 ∧
    csvLine (CsvField.plain "2019-06-26".data) (CsvField.quoted "Debate, night 1".data)
        (CsvField.plain "Part 1".data) (CsvField.plain "Alice".data)
        (CsvField.quoted "Hello, world.".data) "18".data
      = "2019-06-26,\"Debate, night 1\",Part 1,Alice,\"Hello, world.\",18".data ∧
    parseLine (csvLine (CsvField.plain "2019-06-26".data)
        (CsvField.quoted "Debate, night 1".data) (CsvField.plain "Part 1".data)
        (CsvField.plain "Alice".data) (CsvField.quoted "Hello, world.".data) "18".data)
      = some { date := "2019-06-26", eventName := "Debate, night 1", speaker := "Alice",
               script := "Hello, world.", length := 18 } :=
  ⟨by decide, by decide, by decide,
    (C22_field_round_trip (CsvField.plain "2019-06-26".data)
      (CsvField.quoted "Debate, night 1".data) (CsvField.plain "Part 1".data)
      (CsvField.plain "Alice".data) (CsvField.quoted "Hello, world.".data) 18 "18".data
      (by decide) (by decide) (by decide) (by decide) (by decide)
      (by decide) (by decide) (by decide) (by decide) (by decide) (by decide)
      (by decide)).2.2.2.2.2.2⟩

end Debate
